import Mathlib

/-!
Detection post-processing (`examples/base/detection.hpp`)

A shallow embedding of the post-processing pipeline of `detection.hpp`
(confidence sort, greedy NMS, proposal decoding, inverse letterbox mapping)
and the properties proved about it.

Modelling conventions.

* A C++ `float` or `double` holding a finite value is modelled by the rational
  number it denotes; the type `Flt` adds `+inf`, `-inf` and `NaN`.  The sign of
  a zero is not modelled: the divisors of the code that can be zero are
  conversions of `int` values, or the union area of two boxes, which can only
  be a negative zero when the intersection area is zero too.
* Rounding (to nearest, ties to even, with subnormal values; `rnd32`, `rnd64`,
  and `round32` with overflow to an infinity) is modelled in every computation
  whose result is compared with a threshold, converted to `int`, or can be
  non-finite: the sigmoid and the score of a cell, the areas, the overlap and
  the IoU of two boxes, the letterbox scale and the resized dimensions.  The
  box coordinates computed by the decoder and by the remapper from these values
  are kept exact: they differ from the stored `float` by rounding only.
* The detections handled by the pipeline have finite coordinates and scores.
* The library function `exp` is a parameter `expf` with non-negative values.
* A C++ `int` is modelled by `Int`, `/` on `int` by `Int.tdiv` (truncation
  toward zero).  The offset of a cell in the feature buffer is computed with
  the 32-bit wrap-around of the machine (`wrap32`); the other `int` operations
  of the code are modelled without wrap-around.  The conversion
  `int(x)` of a non-finite value has no defined result: the value obtained, and
  every value computed from it, is indeterminate (`none`), and writing a
  rectangle computed from an indeterminate value is undefined.
* `std::vector<T>` is a `List T`; a function that updates a vector in place
  returns its final content.  A read outside the vector is undefined behaviour:
  where an index is not bounded by the loop that produces it the model reads
  through `getI?` and the function returns `none`.
* A pointer to a buffer (`const float*`) is the function from an offset to the
  value stored there.
* The `while` loops and the recursion of the sort carry a fuel argument; the
  entry point supplies it and the theorems show that it is never exhausted.
-/

namespace detection

/-! ## Data model -/

/-- The rectangle template `cv::Rect_<_Tp>`: top-left corner and size. -/
structure Rect_ (T : Type) where
  x : T
  y : T
  width : T
  height : T
deriving DecidableEq, Repr

/-- The detection record `Object` of the source: rectangle, class label and
score.  `T` is the carrier of the rectangle coordinates: `ℚ` inside the
pipeline, `Flt` for the rectangles written by the remapper. -/
structure Object (T : Type) where
  rect : Rect_ T
  label : Int
  prob : ℚ
deriving DecidableEq, Repr

/-- The read `v[k]` of a vector at an `int` index; `none` outside the vector. -/
def getI? {α : Type} (v : List α) (k : Int) : Option α :=
  if 0 ≤ k then v[k.toNat]? else none

/-! ## Confidence sorter -/

/-- The loop `while (faceobjects[i].prob > p) i++;` started at `i`; the result
is the value of `i` at loop exit.  The first argument is the fuel. -/
def scan_up : Nat → List (Object ℚ) → ℚ → Int → Option Int
  | 0, _, _, _ => none
  | n + 1, v, p, i =>
    match getI? v i with
    | none => none
    | some o => if o.prob > p then scan_up n v p (i + 1) else some i

/-- The loop `while (faceobjects[j].prob < p) j--;` started at `j`; the result
is the value of `j` at loop exit.  The first argument is the fuel. -/
def scan_down : Nat → List (Object ℚ) → ℚ → Int → Option Int
  | 0, _, _, _ => none
  | n + 1, v, p, j =>
    match getI? v j with
    | none => none
    | some o => if o.prob < p then scan_down n v p (j - 1) else some j

/-- The exchange `std::swap(faceobjects[i], faceobjects[j])`. -/
def swap (v : List (Object ℚ)) (i j : Int) : Option (List (Object ℚ)) :=
  match getI? v i, getI? v j with
  | some a, some b => some ((v.set i.toNat b).set j.toNat a)
  | _, _ => none

/-- The loop `while (i <= j) { ... }` of `qsort_descent_inplace` with pivot
value `p`: the state is the vector and the two cursors; the result is the state
at loop exit.  The first argument is the fuel. -/
def partition_loop : Nat → List (Object ℚ) → ℚ → Int → Int →
    Option (List (Object ℚ) × Int × Int)
  | 0, _, _, _, _ => none
  | n + 1, v, p, i, j =>
    if i ≤ j then
      match scan_up (v.length + 1) v p i with
      | none => none
      | some i1 =>
        match scan_down (v.length + 1) v p j with
        | none => none
        | some j1 =>
          if i1 ≤ j1 then
            match swap v i1 j1 with
            | none => none
            | some v1 => partition_loop n v1 p (i1 + 1) (j1 - 1)
          else partition_loop n v p i1 j1
    else some (v, i, j)

/-- The recursive `qsort_descent_inplace(faceobjects, left, right)`.  The two
OpenMP sections work on disjoint index ranges and are run one after the
other.  The first argument is the fuel (the recursion depth allowed). -/
def qsort_range : Nat → List (Object ℚ) → Int → Int → Option (List (Object ℚ))
  | 0, _, _, _ => none
  | n + 1, v, left, right =>
    match getI? v ((left + right).tdiv 2) with
    | none => none
    | some m =>
      match partition_loop (v.length + 2) v m.prob left right with
      | none => none
      | some (v1, i, j) =>
        match (if left < j then qsort_range n v1 left j else some v1) with
        | none => none
        | some v2 => if i < right then qsort_range n v2 i right else some v2

/-- The entry point `qsort_descent_inplace(faceobjects)`. -/
def qsort_descent_inplace (faceobjects : List (Object ℚ)) : Option (List (Object ℚ)) :=
  if faceobjects.isEmpty then some faceobjects
  else qsort_range faceobjects.length faceobjects 0 ((faceobjects.length : Int) - 1)

/-! ## Values of type `float` and `double` -/

/-- A `float` (or `double`) value that may be non-finite: a finite value is the
rational number it denotes.  The sign of a zero is not modelled. -/
inductive Flt where
  | fin (q : ℚ)
  | pinf
  | ninf
  | nan
deriving DecidableEq, Repr

/-- The exact quotient `a / b` of two finite values: `x / 0` is `+inf`, `-inf` or
`NaN` by the sign of `x` (the sign of a zero divisor is not modelled). -/
def fdiv (a b : ℚ) : Flt :=
  if b = 0 then (if 0 < a then Flt.pinf else if a < 0 then Flt.ninf else Flt.nan)
  else Flt.fin (a / b)

/-- The comparison `x < y`; it is false as soon as one side is `NaN`. -/
def Flt.lt : Flt → Flt → Bool
  | Flt.nan, _ => false
  | _, Flt.nan => false
  | Flt.fin a, Flt.fin b => decide (a < b)
  | Flt.fin _, Flt.pinf => true
  | Flt.fin _, Flt.ninf => false
  | Flt.pinf, _ => false
  | Flt.ninf, Flt.ninf => false
  | Flt.ninf, _ => true

/-- Negation. -/
def Flt.neg : Flt → Flt
  | Flt.fin a => Flt.fin (-a)
  | Flt.pinf => Flt.ninf
  | Flt.ninf => Flt.pinf
  | Flt.nan => Flt.nan

/-- Addition; `inf + (-inf)` is `NaN`. -/
def Flt.add : Flt → Flt → Flt
  | Flt.nan, _ => Flt.nan
  | _, Flt.nan => Flt.nan
  | Flt.fin a, Flt.fin b => Flt.fin (a + b)
  | Flt.fin _, Flt.pinf => Flt.pinf
  | Flt.fin _, Flt.ninf => Flt.ninf
  | Flt.pinf, Flt.ninf => Flt.nan
  | Flt.pinf, _ => Flt.pinf
  | Flt.ninf, Flt.pinf => Flt.nan
  | Flt.ninf, _ => Flt.ninf

/-- Subtraction. -/
def Flt.sub (x y : Flt) : Flt := Flt.add x (Flt.neg y)

/-- The product of a finite value and an infinity of sign `s` (`true` for
`+inf`); `0 * inf` is `NaN`. -/
def Flt.mulInf (a : ℚ) (s : Bool) : Flt :=
  if a = 0 then Flt.nan
  else if (decide (0 < a)) = s then Flt.pinf else Flt.ninf

/-- Multiplication. -/
def Flt.mul : Flt → Flt → Flt
  | Flt.nan, _ => Flt.nan
  | _, Flt.nan => Flt.nan
  | Flt.fin a, Flt.fin b => Flt.fin (a * b)
  | Flt.fin a, Flt.pinf => Flt.mulInf a true
  | Flt.fin a, Flt.ninf => Flt.mulInf a false
  | Flt.pinf, Flt.fin b => Flt.mulInf b true
  | Flt.ninf, Flt.fin b => Flt.mulInf b false
  | Flt.pinf, Flt.pinf => Flt.pinf
  | Flt.pinf, Flt.ninf => Flt.ninf
  | Flt.ninf, Flt.pinf => Flt.ninf
  | Flt.ninf, Flt.ninf => Flt.pinf

/-- The quotient of an infinity of sign `s` (`true` for `+inf`) by a finite
value; a zero divisor counts as positive. -/
def Flt.infDiv (s : Bool) (b : ℚ) : Flt :=
  if (decide (0 ≤ b)) = s then Flt.pinf else Flt.ninf

/-- Division: `inf / inf` is `NaN`, a finite value over an infinity is zero. -/
def Flt.div : Flt → Flt → Flt
  | Flt.nan, _ => Flt.nan
  | _, Flt.nan => Flt.nan
  | Flt.fin a, Flt.fin b => fdiv a b
  | Flt.fin _, Flt.pinf => Flt.fin 0
  | Flt.fin _, Flt.ninf => Flt.fin 0
  | Flt.pinf, Flt.fin b => Flt.infDiv true b
  | Flt.ninf, Flt.fin b => Flt.infDiv false b
  | Flt.pinf, Flt.pinf => Flt.nan
  | Flt.pinf, Flt.ninf => Flt.nan
  | Flt.ninf, Flt.pinf => Flt.nan
  | Flt.ninf, Flt.ninf => Flt.nan

/-- The comparison `x <= y`; it is false as soon as one side is `NaN`. -/
def Flt.le (x y : Flt) : Bool :=
  Flt.lt x y || (x == y && x != Flt.nan)

/-- The function `std::min(a, b)`, that is `(b < a) ? b : a`. -/
def Flt.min (a b : Flt) : Flt := if Flt.lt b a then b else a

/-- The function `std::max(a, b)`, that is `(a < b) ? b : a`. -/
def Flt.max (a b : Flt) : Flt := if Flt.lt a b then b else a

/-- The conversion `int(x)`: truncation toward zero of a finite value.  The
conversion of a non-finite value has no defined result: the value obtained is
indeterminate (`none`). -/
def Flt.toInt : Flt → Option Int
  | Flt.fin q => some (q.num.tdiv q.den)
  | _ => none

/-! ## Rounding to binary32 and binary64 -/

/-- The constant `FLT_MAX` of `<cfloat>`, the largest finite `float`:
`(2 - 2^-23) * 2^127`. -/
def FLT_MAX : ℚ := (2 ^ 24 - 1) * 2 ^ 104

/-- Rounding to the nearest integer, a tie going to the even one. -/
def round_even (x : ℚ) : Int :=
  let f := ⌊x⌋
  if x - f < 1 / 2 then f
  else if 1 / 2 < x - f then f + 1
  else if f % 2 = 0 then f else f + 1

/-- The number of times `n` can be halved before it drops below 2; the first
argument bounds the number of steps. -/
def log2_steps : Nat → Nat → Nat
  | 0, _ => 0
  | f + 1, n => if 2 ≤ n then log2_steps f (n / 2) + 1 else 0

/-- The integer `⌊log₂ n⌋` for `n ≥ 1`. -/
def nat_log2 (n : Nat) : Nat := log2_steps n n

/-- The power `2^k` for an integer `k`. -/
def pow2 (k : Int) : ℚ :=
  if 0 ≤ k then ((2 ^ k.toNat : Nat) : ℚ) else 1 / ((2 ^ (-k).toNat : Nat) : ℚ)

/-- The binary exponent of a non-zero `q`: the integer `e` with
`2^e ≤ |q| < 2^(e+1)`. -/
def exponent (q : ℚ) : Int :=
  let a : Int := nat_log2 q.num.natAbs
  let b : Int := nat_log2 q.den
  if pow2 (a - b) ≤ |q| then a - b else a - b - 1

/-- Rounding to the nearest value of a binary floating-point format with
`p` significant bits and least normal exponent `emin` (round to nearest, ties
to even, with subnormal values), the exponent range being unbounded above. -/
def rnd (p : Nat) (emin : Int) (q : ℚ) : ℚ :=
  let e := max (exponent q) emin
  let ulp := pow2 (e - (p - 1))
  (round_even (q / ulp) : ℚ) * ulp

/-- Rounding to binary32 (`float`) without overflow. -/
def rnd32 (q : ℚ) : ℚ := rnd 24 (-126) q

/-- Rounding to binary64 (`double`) without overflow. -/
def rnd64 (q : ℚ) : ℚ := rnd 53 (-1022) q

/-- Rounding to binary32: a result beyond `FLT_MAX` in magnitude is an
infinity. -/
def round32 (q : ℚ) : Flt :=
  if FLT_MAX < rnd32 q then Flt.pinf
  else if rnd32 q < -FLT_MAX then Flt.ninf
  else Flt.fin (rnd32 q)

/-- Rounding of a possibly non-finite value to binary32. -/
def Flt.round32 : Flt → Flt
  | Flt.fin q => detection.round32 q
  | x => x

/-- The `float` sum `x + y`. -/
def Flt.fadd (x y : Flt) : Flt := (Flt.add x y).round32

/-- The `float` difference `x - y`. -/
def Flt.fsub (x y : Flt) : Flt := (Flt.sub x y).round32

/-- The `float` product `x * y`. -/
def Flt.fmul (x y : Flt) : Flt := (Flt.mul x y).round32

/-- The `float` quotient `x / y`. -/
def Flt.fdiv (x y : Flt) : Flt := (Flt.div x y).round32

/-! ## Geometry -/

/-- The rectangle of a detection, whose coordinates are finite, as a rectangle
of `float` values. -/
def Rect_.val (r : Rect_ ℚ) : Rect_ Flt :=
  ⟨Flt.fin r.x, Flt.fin r.y, Flt.fin r.width, Flt.fin r.height⟩

/-- The member `cv::Rect_<float>::area()`: the `float` product
`width * height`. -/
def Rect_.area (r : Rect_ Flt) : Flt := Flt.fmul r.width r.height

/-- Modelled from the spec: the OpenCV operator `a & b` on `cv::Rect_<float>`,
which is library code outside this repository.  It is the axis-aligned overlap
of the two rectangles, the empty rectangle when they are disjoint; the corners
`x + width`, `y + height` and the size of the overlap are computed in `float`
arithmetic. -/
def Rect_.inter (a b : Rect_ Flt) : Rect_ Flt :=
  let x1 := Flt.max a.x b.x
  let y1 := Flt.max a.y b.y
  let w := Flt.fsub (Flt.min (Flt.fadd a.x a.width) (Flt.fadd b.x b.width)) x1
  let h := Flt.fsub (Flt.min (Flt.fadd a.y a.height) (Flt.fadd b.y b.height)) y1
  if Flt.le w (Flt.fin 0) || Flt.le h (Flt.fin 0) then ⟨Flt.fin 0, Flt.fin 0, Flt.fin 0, Flt.fin 0⟩
  else ⟨x1, y1, w, h⟩

/-- The function `intersection_area(a, b)`. -/
def intersection_area (a b : Object ℚ) : Flt := (a.rect.val.inter b.rect.val).area

/-! ## Greedy NMS selector -/

/-- The test `inter_area / union_area > nms_threshold` of the inner loop, for a
candidate of area `area_a` and a kept detection of area `area_b`; the sum, the
difference and the quotient are `float` operations. -/
def iou_test (a b : Object ℚ) (area_a area_b : Flt) (nms_threshold : ℚ) : Bool :=
  let inter_area := intersection_area a b
  let union_area := Flt.fsub (Flt.fadd area_a area_b) inter_area
  Flt.lt (Flt.fin nms_threshold) (Flt.fdiv inter_area union_area)

/-- The inner loop `for (j = 0; j < picked.size(); j++)` of `nms_sorted_bboxes`
over the entries of `picked` still to visit; the state is the flag `keep`. -/
def nms_inner (faceobjects : List (Object ℚ)) (areas : List Flt) (nms_threshold : ℚ)
    (a : Object ℚ) (area_a : Flt) : List Int → Bool → Option Bool
  | [], keep => some keep
  | pj :: rest, keep =>
    match getI? faceobjects pj, getI? areas pj with
    | some b, some area_b =>
      nms_inner faceobjects areas nms_threshold a area_a rest
        (if iou_test a b area_a area_b nms_threshold then false else keep)
    | _, _ => none

/-- The outer loop `for (i = 0; i < n; i++)` of `nms_sorted_bboxes` over the
values of `i` still to visit; the state is the vector `picked`. -/
def nms_outer (faceobjects : List (Object ℚ)) (areas : List Flt) (nms_threshold : ℚ) :
    List Int → List Int → Option (List Int)
  | [], picked => some picked
  | i :: rest, picked =>
    match getI? faceobjects i, getI? areas i with
    | some a, some area_a =>
      match nms_inner faceobjects areas nms_threshold a area_a picked true with
      | none => none
      | some keep =>
        nms_outer faceobjects areas nms_threshold rest (if keep then picked ++ [i] else picked)
    | _, _ => none

/-- The call `picked.clear()`. -/
def vec_clear {α : Type} (_ : List α) : List α := []

/-- The function `nms_sorted_bboxes(faceobjects, picked, nms_threshold)`; the
result is the final content of `picked`. -/
def nms_sorted_bboxes (faceobjects : List (Object ℚ)) (picked : List Int)
    (nms_threshold : ℚ) : Option (List Int) :=
  let picked := vec_clear picked
  let n := faceobjects.length
  let areas := faceobjects.map (fun o => o.rect.val.area)
  nms_outer faceobjects areas nms_threshold ((List.range n).map Int.ofNat) picked

/-- The IoU of two detections as `nms_sorted_bboxes` computes it:
`inter_area / (area_a + area_b - inter_area)` in `float` arithmetic. -/
def iou (a b : Object ℚ) : Flt :=
  Flt.fdiv (intersection_area a b)
    (Flt.fsub (Flt.fadd a.rect.val.area b.rect.val.area) (intersection_area a b))

/-! ## Detection decoder -/

/-- The rational `q` is in the range of the finite values of type `float`. -/
def is_float (q : ℚ) : Prop := -FLT_MAX ≤ q ∧ q ≤ FLT_MAX

/-- The function `sigmoid(x) = 1 / (1 + exp(-x))`, computed in single
precision: the sum `1.f + exp(-x)` and the quotient are rounded to binary32, and
for a sum beyond `FLT_MAX`, which is `+inf`, the quotient is 0.  The library
function `exp` is the parameter `expf`; its values are non-negative (a value
beyond `FLT_MAX` stands for `+inf`), so the divisor is at least one. -/
def sigmoid (expf : ℚ → NNRat) (x : ℚ) : ℚ :=
  let d := rnd32 (1 + (expf (-x) : ℚ))
  if FLT_MAX < d then 0 else rnd32 (1 / d)

/-- The variable `anchor_group` after the three `if` statements of
`generate_proposals`; `none` while it is still uninitialised. -/
def anchor_group_of (stride : Int) : Option Int :=
  let g0 : Option Int := none
  let g1 := if stride = 8 then some 1 else g0
  let g2 := if stride = 16 then some 2 else g1
  if stride = 32 then some 3 else g2

/-- The class scan of one cell (`//process cls score`): the loop over the 80
class channels with state `(class_index, class_score)`. -/
def class_scan (feat : Int → ℚ) (offset : Int) : Int × ℚ :=
  (List.range 80).foldl
    (fun (st : Int × ℚ) (s : Nat) =>
      let score := feat (offset + s + 5)
      if score > st.2 then ((s : Int), score) else st)
    (0, -FLT_MAX)

/-- The value of type `int` (32 bits, two's complement) that an arithmetic
operation with the exact result `x` leaves: `x` itself when it fits, the
wrapped value otherwise. -/
def wrap32 (x : Int) : Int := (x + 2 ^ 31) % 2 ^ 32 - 2 ^ 31

/-- The base offset `a * a_stride + h * h_stride + w * w_stride` of a cell; the
strides and the offset are computed in `int` arithmetic. -/
def cell_offset (feat_w feat_h h w a : Int) : Int :=
  let cls_num : Int := 80
  let w_stride := wrap32 (cls_num + 5)
  let h_stride := wrap32 (feat_w * w_stride)
  let a_stride := wrap32 (feat_h * h_stride)
  wrap32 (wrap32 (wrap32 (a * a_stride) + wrap32 (h * h_stride)) + wrap32 (w * w_stride))

/-- The value `final_score = sigmoid(box_score) * sigmoid(class_score)` of the
cell at `offset`: the `float` product of the two sigmoids. -/
def cell_score (expf : ℚ → NNRat) (feat : Int → ℚ) (offset : Int) : ℚ :=
  let class_score := (class_scan feat offset).2
  let box_score := feat (offset + 4)
  rnd32 (sigmoid expf box_score * sigmoid expf class_score)

/-- The detection built in the body of `if (final_score >= prob_threshold)` for
the cell `(h, w, a)` at `offset`, with the value `anchor_group` in hand.  The
sigmoids and the score are the single-precision values; the box arithmetic on
them is carried out exactly. -/
def cell_object (expf : ℚ → NNRat) (stride : Int) (feat : Int → ℚ) (anchors : Int → ℚ)
    (anchor_group : Int) (offset h w a : Int) : Object ℚ :=
  let loc_idx := offset
  let dx := sigmoid expf (feat (loc_idx + 0))
  let dy := sigmoid expf (feat (loc_idx + 1))
  let dw := sigmoid expf (feat (loc_idx + 2))
  let dh := sigmoid expf (feat (loc_idx + 3))
  let pred_cx := (dx * 2 - 1 / 2 + w) * stride
  let pred_cy := (dy * 2 - 1 / 2 + h) * stride
  let anchor_w := anchors ((anchor_group - 1) * 6 + a * 2 + 0)
  let anchor_h := anchors ((anchor_group - 1) * 6 + a * 2 + 1)
  let pred_w := dw * dw * 4 * anchor_w
  let pred_h := dh * dh * 4 * anchor_h
  let x0 := pred_cx - pred_w * (1 / 2)
  let y0 := pred_cy - pred_h * (1 / 2)
  let x1 := pred_cx + pred_w * (1 / 2)
  let y1 := pred_cy + pred_h * (1 / 2)
  { rect := ⟨x0, y0, x1 - x0, y1 - y0⟩
    label := (class_scan feat offset).1
    prob := cell_score expf feat offset }

/-- The body of the innermost loop of `generate_proposals` for the cell
`(h, w, a)`: the state is the vector `objects`.  Reading `anchor_group` while
it is uninitialised is undefined behaviour (`none`). -/
def proposal_cell (expf : ℚ → NNRat) (stride : Int) (feat : Int → ℚ) (prob_threshold : ℚ)
    (anchors : Int → ℚ) (anchor_group : Option Int) (feat_w feat_h : Int)
    (objects : List (Object ℚ)) (h w a : Int) : Option (List (Object ℚ)) :=
  let offset := cell_offset feat_w feat_h h w a
  let final_score := cell_score expf feat offset
  if final_score ≥ prob_threshold then
    match anchor_group with
    | none => none
    | some g => some (objects ++ [cell_object expf stride feat anchors g offset h w a])
  else some objects

/-- The function `generate_proposals`.  The pointers `feat` and `anchors` are the
functions from an offset to the value stored there; the result is the final
content of `objects`.  A zero `stride` is a division by zero (`none`). -/
def generate_proposals (expf : ℚ → NNRat) (stride : Int) (feat : Int → ℚ)
    (prob_threshold : ℚ) (objects : List (Object ℚ)) (letterbox_cols letterbox_rows : Int)
    (anchors : Int → ℚ) : Option (List (Object ℚ)) :=
  if stride = 0 then none
  else
    let anchor_num : Nat := 3
    let feat_w := letterbox_cols.tdiv stride
    let feat_h := letterbox_rows.tdiv stride
    let anchor_group := anchor_group_of stride
    (List.range feat_h.toNat).foldlM
      (fun objects (h : Nat) =>
        (List.range feat_w.toNat).foldlM
          (fun objects (w : Nat) =>
            (List.range anchor_num).foldlM
              (fun objects (a : Nat) =>
                proposal_cell expf stride feat prob_threshold anchors anchor_group
                  feat_w feat_h objects h w a)
              objects)
          objects)
      objects

/-- The cells `(h, w, a)` of a feature map in the order of the three loops of
`generate_proposals`: `h` outermost, then `w`, then `a`. -/
def cells (feat_h feat_w : Nat) : List (Nat × Nat × Nat) :=
  (List.range feat_h).flatMap fun h =>
    (List.range feat_w).flatMap fun w => (List.range 3).map fun a => (h, w, a)

/-! ## Coordinate remapper -/

/-- Rounding of a possibly non-finite value, a finite one by `f`. -/
def Flt.rounded (f : ℚ → ℚ) : Flt → Flt
  | Flt.fin q => Flt.fin (f q)
  | x => x

/-- The `double` quotient `a * 1.0 / b` of two `int` values, rounded to
binary64 (the quotient of two `int` values is within the range of the type). -/
def ddiv (a b : Int) : Flt := (fdiv a b).rounded rnd64

/-- The `float` product `scale_letterbox * n` of a `float` and an `int`: the
`int` is converted to `float` and the product is rounded to binary32 (the values
are within the range of the type). -/
def scale_mul (scale_letterbox : Flt) (n : Int) : Flt :=
  (Flt.mul scale_letterbox (Flt.fin (rnd32 n))).rounded rnd32

/-- A loop `for (i = 0; i < count; i++) objects[i] = f(xs[i])` whose body can
run into undefined behaviour: the result is `none` as soon as one step is; a
loop over no element is `some []`. -/
def mapOpt {α β : Type} : List α → (α → Option β) → Option (List β)
  | [], _ => some []
  | a :: t, f =>
    match f a with
    | none => none
    | some b =>
      match mapOpt t f with
      | none => none
      | some bs => some (b :: bs)

/-- The function `reverse_letterbox`.  The vector `objects` is resized to the
number of proposals and every entry is assigned, so its final content, which is
the result, does not depend on its previous content.  The scale and the
resized dimensions are computed as in the code: quotients in `double`,
conversion to `float`, product in `float`, truncation to `int`; the box
arithmetic that follows is carried out exactly.  The values computed from an
indeterminate `resize_cols` or `resize_rows` are indeterminate (`none`), and
writing a rectangle computed from one is undefined (`none`). -/
def reverse_letterbox (proposal : List (Object ℚ))
    (letterbox_rows letterbox_cols src_rows src_cols : Int) : Option (List (Object Flt)) :=
  let scale_letterbox :=
    if Flt.lt (ddiv letterbox_rows src_rows) (ddiv letterbox_cols src_cols) then
      (ddiv letterbox_rows src_rows).rounded rnd32
    else (ddiv letterbox_cols src_cols).rounded rnd32
  let resize_cols := Flt.toInt (scale_mul scale_letterbox src_cols)
  let resize_rows := Flt.toInt (scale_mul scale_letterbox src_rows)
  let tmp_h := resize_rows.map fun (r : Int) => (letterbox_rows - r).tdiv 2
  let tmp_w := resize_cols.map fun (c : Int) => (letterbox_cols - c).tdiv 2
  let ratio_x := resize_rows.map fun (r : Int) => fdiv src_rows r
  let ratio_y := resize_cols.map fun (c : Int) => fdiv src_cols c
  mapOpt proposal fun p =>
    match tmp_h, tmp_w, ratio_x, ratio_y with
    | some tmp_h, some tmp_w, some ratio_x, some ratio_y =>
      let x0 := p.rect.x
      let y0 := p.rect.y
      let x1 := p.rect.x + p.rect.width
      let y1 := p.rect.y + p.rect.height
      let x0 := Flt.mul (Flt.fin (x0 - tmp_w)) ratio_x
      let y0 := Flt.mul (Flt.fin (y0 - tmp_h)) ratio_y
      let x1 := Flt.mul (Flt.fin (x1 - tmp_w)) ratio_x
      let y1 := Flt.mul (Flt.fin (y1 - tmp_h)) ratio_y
      let x0 := Flt.max (Flt.min x0 (Flt.fin ((src_cols - 1 : Int) : ℚ))) (Flt.fin 0)
      let y0 := Flt.max (Flt.min y0 (Flt.fin ((src_rows - 1 : Int) : ℚ))) (Flt.fin 0)
      let x1 := Flt.max (Flt.min x1 (Flt.fin ((src_cols - 1 : Int) : ℚ))) (Flt.fin 0)
      let y1 := Flt.max (Flt.min y1 (Flt.fin ((src_rows - 1 : Int) : ℚ))) (Flt.fin 0)
      some { rect := ⟨x0, y0, Flt.sub x1 x0, Flt.sub y1 y0⟩, label := p.label, prob := p.prob }
    | _, _, _, _ => none

/-- The function `get_out_bbox`: sort, NMS selection and remapping of the picked
proposals.  The result is the final content of `objects`, which does not depend
on its previous content.  The scale, the resized dimensions and indeterminate
values are treated as in `reverse_letterbox`. -/
def get_out_bbox (proposals : List (Object ℚ)) (nms_threshold : ℚ)
    (letterbox_rows letterbox_cols src_rows src_cols : Int) : Option (List (Object Flt)) :=
  match qsort_descent_inplace proposals with
  | none => none
  | some proposals =>
    match nms_sorted_bboxes proposals [] nms_threshold with
    | none => none
    | some picked =>
      let scale_letterbox :=
        if Flt.lt (ddiv letterbox_rows src_rows) (ddiv letterbox_cols src_cols) then
          (ddiv letterbox_rows src_rows).rounded rnd32
        else (ddiv letterbox_cols src_cols).rounded rnd32
      let resize_cols := Flt.toInt (scale_mul scale_letterbox src_cols)
      let resize_rows := Flt.toInt (scale_mul scale_letterbox src_rows)
      let tmp_h := resize_rows.map fun (r : Int) => (letterbox_rows - r).tdiv 2
      let tmp_w := resize_cols.map fun (c : Int) => (letterbox_cols - c).tdiv 2
      let ratio_x := resize_rows.map fun (r : Int) => fdiv src_rows r
      let ratio_y := resize_cols.map fun (c : Int) => fdiv src_cols c
      mapOpt picked fun k =>
        match getI? proposals k with
        | none => none
        | some p =>
          match tmp_h, tmp_w, ratio_x, ratio_y with
          | some tmp_h, some tmp_w, some ratio_x, some ratio_y =>
            let x0 := p.rect.x
            let y0 := p.rect.y
            let x1 := p.rect.x + p.rect.width
            let y1 := p.rect.y + p.rect.height
            let x0 := Flt.mul (Flt.fin (x0 - tmp_w)) ratio_x
            let y0 := Flt.mul (Flt.fin (y0 - tmp_h)) ratio_y
            let x1 := Flt.mul (Flt.fin (x1 - tmp_w)) ratio_x
            let y1 := Flt.mul (Flt.fin (y1 - tmp_h)) ratio_y
            let x0 := Flt.max (Flt.min x0 (Flt.fin ((src_cols - 1 : Int) : ℚ))) (Flt.fin 0)
            let y0 := Flt.max (Flt.min y0 (Flt.fin ((src_rows - 1 : Int) : ℚ))) (Flt.fin 0)
            let x1 := Flt.max (Flt.min x1 (Flt.fin ((src_cols - 1 : Int) : ℚ))) (Flt.fin 0)
            let y1 := Flt.max (Flt.min y1 (Flt.fin ((src_rows - 1 : Int) : ℚ))) (Flt.fin 0)
            some
              { rect := ⟨x0, y0, Flt.sub x1 x0, Flt.sub y1 y0⟩, label := p.label,
                prob := p.prob }
          | _, _, _, _ => none

/-- The values `(resize_cols, resize_rows)` computed at the head of
`reverse_letterbox` and of `get_out_bbox`, when both are determinate. -/
def resize_dims (letterbox_rows letterbox_cols src_rows src_cols : Int) :
    Option (Int × Int) :=
  let scale_letterbox :=
    if Flt.lt (ddiv letterbox_rows src_rows) (ddiv letterbox_cols src_cols) then
      (ddiv letterbox_rows src_rows).rounded rnd32
    else (ddiv letterbox_cols src_cols).rounded rnd32
  match Flt.toInt (scale_mul scale_letterbox src_cols),
      Flt.toInt (scale_mul scale_letterbox src_rows) with
  | some resize_cols, some resize_rows => some (resize_cols, resize_rows)
  | _, _ => none

/-- The record `GridAndStride` of the source. -/
structure GridAndStride where
  grid0 : Int
  grid1 : Int
  stride : Int
deriving DecidableEq, Repr

/-- The function `generate_grids_and_stride`; the result is the final content
of `grid_strides`.  A zero stride is a division by zero (`none`). -/
def generate_grids_and_stride (target_w target_h : Int) (strides : List Int)
    (grid_strides : List GridAndStride) : Option (List GridAndStride) :=
  strides.foldlM
    (fun (grid_strides : List GridAndStride) (stride : Int) =>
      if stride = 0 then none
      else
        let num_grid_w := target_w.tdiv stride
        let num_grid_h := target_h.tdiv stride
        some
          ((List.range num_grid_h.toNat).foldl
            (fun (grid_strides : List GridAndStride) (g1 : Nat) =>
              (List.range num_grid_w.toNat).foldl
                (fun (grid_strides : List GridAndStride) (g0 : Nat) =>
                  grid_strides ++ [{ grid0 := g0, grid1 := g1, stride := stride }])
                grid_strides)
            grid_strides))
    grid_strides

/-- The cells of one stride in row-major order (`grid1` outer, `grid0` inner),
each tagged with the stride (used in statements only). -/
def grid_block (target_w target_h stride : Int) : List GridAndStride :=
  (List.range (target_h.tdiv stride).toNat).flatMap fun (g1 : Nat) =>
    (List.range (target_w.tdiv stride).toNat).map fun (g0 : Nat) =>
      { grid0 := g0, grid1 := g1, stride := stride }

/-! ## A rational stand-in for `exp` -/

/-- A rational approximation of `exp`, used where a concrete function is needed
for the parameter `expf`: the Taylor polynomial of degree 5 at `|x|`, inverted
for negative `x`.  It is exact at 0 and gives `163/60` (2.7167) at 1. -/
def exp_approx (x : ℚ) : NNRat :=
  let y : NNRat := Rat.toNNRat |x|
  let s : NNRat := 1 + y + y ^ 2 / 2 + y ^ 3 / 6 + y ^ 4 / 24 + y ^ 5 / 120
  if 0 ≤ x then s else s⁻¹

/-! ## The sorter with a record of the indices it accesses -/

/-- The loop of `scan_up`, returning in addition the list of the indices `k` of
the reads `faceobjects[k]` it performs. -/
def scan_up_tr : Nat → List (Object ℚ) → ℚ → Int → Option (Int × List Int)
  | 0, _, _, _ => none
  | n + 1, v, p, i =>
    match getI? v i with
    | none => none
    | some o =>
      if o.prob > p then
        match scan_up_tr n v p (i + 1) with
        | none => none
        | some (i1, t) => some (i1, i :: t)
      else some (i, [i])

/-- The loop of `scan_down`, returning in addition the list of the indices it
reads. -/
def scan_down_tr : Nat → List (Object ℚ) → ℚ → Int → Option (Int × List Int)
  | 0, _, _, _ => none
  | n + 1, v, p, j =>
    match getI? v j with
    | none => none
    | some o =>
      if o.prob < p then
        match scan_down_tr n v p (j - 1) with
        | none => none
        | some (j1, t) => some (j1, j :: t)
      else some (j, [j])

/-- The loop of `partition_loop`, returning in addition the list of the indices
read by the two scanning loops and exchanged by `std::swap`. -/
def partition_loop_tr : Nat → List (Object ℚ) → ℚ → Int → Int →
    Option ((List (Object ℚ) × Int × Int) × List Int)
  | 0, _, _, _, _ => none
  | n + 1, v, p, i, j =>
    if i ≤ j then
      match scan_up_tr (v.length + 1) v p i with
      | none => none
      | some (i1, t1) =>
        match scan_down_tr (v.length + 1) v p j with
        | none => none
        | some (j1, t2) =>
          if i1 ≤ j1 then
            match swap v i1 j1 with
            | none => none
            | some v1 =>
              match partition_loop_tr n v1 p (i1 + 1) (j1 - 1) with
              | none => none
              | some (r, t3) => some (r, t1 ++ t2 ++ [i1, j1] ++ t3)
          else
            match partition_loop_tr n v p i1 j1 with
            | none => none
            | some (r, t3) => some (r, t1 ++ t2 ++ t3)
    else some ((v, i, j), [])

/-- The recursion of `qsort_range`, returning in addition the list of all the
indices accessed: the pivot read, the accesses of the partition loop and those
of the two recursive calls. -/
def qsort_range_tr : Nat → List (Object ℚ) → Int → Int →
    Option (List (Object ℚ) × List Int)
  | 0, _, _, _ => none
  | n + 1, v, left, right =>
    match getI? v ((left + right).tdiv 2) with
    | none => none
    | some m =>
      match partition_loop_tr (v.length + 2) v m.prob left right with
      | none => none
      | some ((v1, i, j), t1) =>
        match (if left < j then qsort_range_tr n v1 left j else some (v1, [])) with
        | none => none
        | some (v2, t2) =>
          match (if i < right then qsort_range_tr n v2 i right else some (v2, [])) with
          | none => none
          | some (v3, t3) => some (v3, (left + right).tdiv 2 :: (t1 ++ t2 ++ t3))

/-! ## Invariants used in the proofs -/

/-- Loop invariant of `partition_loop` on the range `[left, right]` of the
vector `v0` with pivot value `p` (used in the proofs only). -/
structure PInv (v0 v : List (Object ℚ)) (p : ℚ) (left right i j : Int) : Prop where
  len : v.length = v0.length
  perm : v.Perm v0
  hl : 0 ≤ left
  hr : right < v0.length
  hi : left ≤ i
  hj : j ≤ right
  hi2 : i ≤ right + 1
  hj2 : left - 1 ≤ j
  outside : ∀ k, (k < left ∨ right < k) → getI? v k = getI? v0 k
  sub : ∀ k o, left ≤ k → k ≤ right → getI? v k = some o →
    ∃ k0, left ≤ k0 ∧ k0 ≤ right ∧ getI? v0 k0 = some o
  lo : ∀ k o, left ≤ k → k < i → getI? v k = some o → p ≤ o.prob
  up : ∀ k o, j < k → k ≤ right → getI? v k = some o → o.prob ≤ p
  stop : i ≤ j →
    (∃ k o, i ≤ k ∧ k ≤ right ∧ getI? v k = some o ∧ o.prob ≤ p) ∧
    (∃ k o, left ≤ k ∧ k ≤ j ∧ getI? v k = some o ∧ p ≤ o.prob)
  prog : (i = left ∧ j = right ∧ ∃ k o, left ≤ k ∧ k ≤ right ∧ getI? v k = some o ∧ o.prob = p) ∨
    (left < i ∧ j < right)

/-- What a call `qsort_descent_inplace(v, left, right)` establishes: `v1` is the
vector after the call (used in the proofs only). -/
structure QPost (v v1 : List (Object ℚ)) (left right : Int) : Prop where
  len : v1.length = v.length
  perm : v1.Perm v
  outside : ∀ k, (k < left ∨ right < k) → getI? v1 k = getI? v k
  sub : ∀ k o, left ≤ k → k ≤ right → getI? v1 k = some o →
    ∃ k0, left ≤ k0 ∧ k0 ≤ right ∧ getI? v k0 = some o
  sorted : ∀ k1 k2 o1 o2, left ≤ k1 → k1 ≤ k2 → k2 ≤ right →
    getI? v1 k1 = some o1 → getI? v1 k2 = some o2 → o2.prob ≤ o1.prob

/-- The rational `q` is a value of the binary format with `p` significant bits
and least normal exponent `emin` (exponent range unbounded above): an integer
significand below `2^p` in magnitude times a power of two not below the least
one. -/
def Rep (p : Nat) (emin : Int) (q : ℚ) : Prop :=
  ∃ m k : Int, |m| < 2 ^ p ∧ emin - (p - 1) ≤ k ∧ q = m * pow2 k

/-! # Theorems -/

/-! ## Rounding -/

theorem pow2_eq (k : Int) : pow2 k = (2 : ℚ) ^ k := by
  unfold pow2
  split
  · rename_i h
    obtain ⟨n, rfl⟩ := Int.eq_ofNat_of_zero_le h
    simp
  · rename_i h
    obtain ⟨n, rfl⟩ := Int.eq_negSucc_of_lt_zero (by omega : k < 0)
    simp only [Int.neg_negSucc, zpow_negSucc]
    norm_cast
    simp

theorem pow2_pos (k : Int) : 0 < pow2 k := by
  rw [pow2_eq]
  positivity

theorem pow2_add (a b : Int) : pow2 (a + b) = pow2 a * pow2 b := by
  simp only [pow2_eq]
  exact zpow_add₀ (by norm_num) a b

theorem pow2_le_pow2 {a b : Int} (h : a ≤ b) : pow2 a ≤ pow2 b := by
  simp only [pow2_eq]
  exact zpow_le_zpow_right₀ (by norm_num) h

theorem pow2_natCast (n : Nat) : pow2 (n : Int) = (((2 : Int) ^ n : Int) : ℚ) := by
  rw [pow2_eq, zpow_natCast]
  push_cast
  rfl

theorem floor_le_round_even (x : ℚ) : ⌊x⌋ ≤ round_even x := by
  unfold round_even
  simp only
  split_ifs <;> omega

theorem round_even_le_floor_succ (x : ℚ) : round_even x ≤ ⌊x⌋ + 1 := by
  unfold round_even
  simp only
  split_ifs <;> omega

theorem round_even_intCast (n : Int) : round_even (n : ℚ) = n := by
  unfold round_even
  simp

theorem round_even_mono {x y : ℚ} (h : x ≤ y) : round_even x ≤ round_even y := by
  have hf : ⌊x⌋ ≤ ⌊y⌋ := Int.floor_mono h
  rcases lt_or_eq_of_le hf with hlt | heq
  · have h1 := round_even_le_floor_succ x
    have h2 := floor_le_round_even y
    omega
  · unfold round_even
    simp only [← heq]
    have hxy : x - (⌊x⌋ : ℚ) ≤ y - (⌊x⌋ : ℚ) := by linarith
    split_ifs <;> first | omega | (exfalso; linarith)

theorem round_even_le_of_le {x : ℚ} {n : Int} (h : x ≤ n) : round_even x ≤ n := by
  have := round_even_mono h
  rwa [round_even_intCast] at this

theorem le_round_even_of_le {x : ℚ} {n : Int} (h : (n : ℚ) ≤ x) : n ≤ round_even x := by
  have := round_even_mono h
  rwa [round_even_intCast] at this

theorem log2_steps_spec : ∀ (f n : Nat), n ≤ f → 1 ≤ n →
    2 ^ log2_steps f n ≤ n ∧ n < 2 ^ (log2_steps f n + 1) := by
  intro f
  induction f with
  | zero => intro n h1 h2; omega
  | succ f ih =>
    intro n h1 h2
    rw [log2_steps]
    split
    · rename_i h
      obtain ⟨ha, hb⟩ := ih (n / 2) (by omega) (by omega)
      rw [pow_succ] at hb ⊢
      rw [pow_succ]
      constructor <;> omega
    · simp
      omega

theorem nat_log2_spec (n : Nat) (h : 1 ≤ n) :
    2 ^ nat_log2 n ≤ n ∧ n < 2 ^ (nat_log2 n + 1) :=
  log2_steps_spec n n (le_refl n) h

theorem abs_eq_natAbs_div (q : ℚ) : |q| = (q.num.natAbs : ℚ) / (q.den : ℚ) := by
  conv_lhs => rw [← Rat.num_div_den q]
  rw [abs_div, Nat.abs_cast, Nat.cast_natAbs, Int.cast_abs]

theorem exponent_spec (q : ℚ) (hq : q ≠ 0) :
    pow2 (exponent q) ≤ |q| ∧ |q| < pow2 (exponent q + 1) := by
  have hn : 1 ≤ q.num.natAbs := by
    have : q.num ≠ 0 := Rat.num_ne_zero.mpr hq
    omega
  have hd : 1 ≤ q.den := q.den_pos
  obtain ⟨ha1, ha2⟩ := nat_log2_spec _ hn
  obtain ⟨hb1, hb2⟩ := nat_log2_spec _ hd
  have ha1q : (2 : ℚ) ^ (nat_log2 q.num.natAbs : Int) ≤ (q.num.natAbs : ℚ) := by
    rw [zpow_natCast]
    exact_mod_cast ha1
  have ha2q : (q.num.natAbs : ℚ) < (2 : ℚ) ^ ((nat_log2 q.num.natAbs : Int) + 1) := by
    have : ((nat_log2 q.num.natAbs : Int) + 1) = ((nat_log2 q.num.natAbs + 1 : Nat) : Int) := by
      push_cast; rfl
    rw [this, zpow_natCast]
    exact_mod_cast ha2
  have hb1q : (2 : ℚ) ^ (nat_log2 q.den : Int) ≤ (q.den : ℚ) := by
    rw [zpow_natCast]
    exact_mod_cast hb1
  have hb2q : (q.den : ℚ) < (2 : ℚ) ^ ((nat_log2 q.den : Int) + 1) := by
    have : ((nat_log2 q.den : Int) + 1) = ((nat_log2 q.den + 1 : Nat) : Int) := by
      push_cast; rfl
    rw [this, zpow_natCast]
    exact_mod_cast hb2
  have hdq : (0 : ℚ) < q.den := by exact_mod_cast hd
  have habs := abs_eq_natAbs_div q
  have h2 : (2 : ℚ) ≠ 0 := by norm_num
  unfold exponent
  simp only
  split
  · rename_i h
    refine ⟨h, ?_⟩
    rw [pow2_eq, habs, div_lt_iff₀ hdq]
    have e : ((nat_log2 q.num.natAbs : Int) - (nat_log2 q.den : Int) + 1) =
        ((nat_log2 q.num.natAbs : Int) + 1) - (nat_log2 q.den : Int) := by ring
    rw [e, zpow_sub₀ h2]
    calc (q.num.natAbs : ℚ) < (2 : ℚ) ^ ((nat_log2 q.num.natAbs : Int) + 1) := ha2q
      _ = (2 : ℚ) ^ ((nat_log2 q.num.natAbs : Int) + 1) / (2 : ℚ) ^ (nat_log2 q.den : Int) *
            (2 : ℚ) ^ (nat_log2 q.den : Int) := by
          field_simp
      _ ≤ _ := by
          apply mul_le_mul_of_nonneg_left hb1q
          positivity
  · rename_i h
    push_neg at h
    constructor
    · rw [pow2_eq, habs, le_div_iff₀ hdq]
      have e : ((nat_log2 q.num.natAbs : Int) - (nat_log2 q.den : Int) - 1) =
          (nat_log2 q.num.natAbs : Int) - ((nat_log2 q.den : Int) + 1) := by ring
      rw [e, zpow_sub₀ h2]
      calc (2 : ℚ) ^ (nat_log2 q.num.natAbs : Int) / (2 : ℚ) ^ ((nat_log2 q.den : Int) + 1) *
            (q.den : ℚ)
          ≤ (2 : ℚ) ^ (nat_log2 q.num.natAbs : Int) / (2 : ℚ) ^ ((nat_log2 q.den : Int) + 1) *
            (2 : ℚ) ^ ((nat_log2 q.den : Int) + 1) := by
            apply mul_le_mul_of_nonneg_left hb2q.le
            positivity
        _ = (2 : ℚ) ^ (nat_log2 q.num.natAbs : Int) := by field_simp
        _ ≤ _ := ha1q
    · have e : ((nat_log2 q.num.natAbs : Int) - (nat_log2 q.den : Int) - 1 + 1) =
          (nat_log2 q.num.natAbs : Int) - (nat_log2 q.den : Int) := by ring
      rw [e]
      exact h

theorem exponent_lt_of_abs_lt (q : ℚ) (hq : q ≠ 0) (k : Int) (h : |q| < pow2 k) :
    exponent q < k := by
  by_contra hc
  push_neg at hc
  have := (exponent_spec q hq).1
  have := pow2_le_pow2 hc
  linarith

theorem le_exponent_of_le_abs (q : ℚ) (hq : q ≠ 0) (k : Int) (h : pow2 k ≤ |q|) :
    k ≤ exponent q := by
  by_contra hc
  push_neg at hc
  have := (exponent_spec q hq).2
  have := pow2_le_pow2 (show exponent q + 1 ≤ k by omega)
  linarith

theorem exponent_mono {q r : ℚ} (hq : 0 < q) (h : q ≤ r) : exponent q ≤ exponent r := by
  apply le_exponent_of_le_abs r (by linarith)
  have := (exponent_spec q hq.ne').1
  rw [abs_of_pos hq] at this
  rw [abs_of_pos (by linarith)]
  linarith

theorem rnd_zero (p : Nat) (emin : Int) : rnd p emin 0 = 0 := by
  simp [rnd, round_even]

theorem rnd_nonneg (p : Nat) (emin : Int) {q : ℚ} (h : 0 ≤ q) : 0 ≤ rnd p emin q := by
  unfold rnd
  simp only
  apply mul_nonneg _ (pow2_pos _).le
  have : (0 : Int) ≤ round_even (q / pow2 (max (exponent q) emin - (↑p - 1))) :=
    le_round_even_of_le (by simpa using div_nonneg h (pow2_pos _).le)
  exact_mod_cast this

theorem pow2_p_mul (p : Nat) (E : Int) :
    (((2 : Int) ^ p : Int) : ℚ) * pow2 (E - (↑p - 1)) = pow2 (E + 1) := by
  rw [← pow2_natCast, ← pow2_add]
  congr 1
  ring

theorem abs_div_ulp_lt (p : Nat) (emin : Int) (q : ℚ) (hq : q ≠ 0) :
    |q / pow2 (max (exponent q) emin - (↑p - 1))| < (((2 : Int) ^ p : Int) : ℚ) := by
  have hu := pow2_pos (max (exponent q) emin - (↑p - 1))
  rw [abs_div, abs_of_pos hu, div_lt_iff₀ hu, pow2_p_mul]
  calc |q| < pow2 (exponent q + 1) := (exponent_spec q hq).2
    _ ≤ _ := pow2_le_pow2 (by have := le_max_left (exponent q) emin; omega)

theorem rnd_le_pow2 (p : Nat) (emin : Int) (q : ℚ) (hq : q ≠ 0) :
    rnd p emin q ≤ pow2 (max (exponent q) emin + 1) := by
  have h := abs_div_ulp_lt p emin q hq
  have h1 : round_even (q / pow2 (max (exponent q) emin - (↑p - 1))) ≤ (2 : Int) ^ p :=
    round_even_le_of_le (le_of_lt (lt_of_le_of_lt (le_abs_self _) h))
  unfold rnd
  simp only
  rw [← pow2_p_mul p]
  exact mul_le_mul_of_nonneg_right (by exact_mod_cast h1) (pow2_pos _).le

theorem pow2_le_rnd (p : Nat) (hp : 1 ≤ p) (emin : Int) (q : ℚ) (hq : 0 < q)
    (he : emin ≤ exponent q) : pow2 (exponent q) ≤ rnd p emin q := by
  obtain ⟨n, rfl⟩ : ∃ n, p = n + 1 := ⟨p - 1, by omega⟩
  have hE : max (exponent q) emin = exponent q := max_eq_left he
  have hu := pow2_pos (exponent q - (↑(n + 1) - 1))
  have hsplit : pow2 (exponent q) = (((2 : Int) ^ n : Int) : ℚ) *
      pow2 (exponent q - (↑(n + 1) - 1)) := by
    rw [← pow2_natCast, ← pow2_add]
    congr 1
    push_cast
    ring
  have h1 : (2 : Int) ^ n ≤ round_even (q / pow2 (exponent q - (↑(n + 1) - 1))) := by
    apply le_round_even_of_le
    rw [le_div_iff₀ hu, ← hsplit]
    have := (exponent_spec q hq.ne').1
    rwa [abs_of_pos hq] at this
  unfold rnd
  simp only [hE]
  rw [hsplit]
  exact mul_le_mul_of_nonneg_right (by exact_mod_cast h1) hu.le

theorem rnd_mono_nonneg (p : Nat) (hp : 1 ≤ p) (emin : Int) {q r : ℚ} (hq : 0 ≤ q)
    (h : q ≤ r) : rnd p emin q ≤ rnd p emin r := by
  rcases eq_or_lt_of_le hq with h0 | hpos
  · rw [← h0, rnd_zero]
    exact rnd_nonneg p emin (le_trans hq h)
  · have hr : 0 < r := lt_of_lt_of_le hpos h
    have hem := exponent_mono hpos h
    rcases eq_or_lt_of_le (max_le_max_right emin hem) with heq | hlt
    · unfold rnd
      simp only [heq]
      apply mul_le_mul_of_nonneg_right _ (pow2_pos _).le
      have := round_even_mono (div_le_div_of_nonneg_right h (pow2_pos
        (max (exponent r) emin - (↑p - 1))).le)
      exact_mod_cast this
    · have her : emin < exponent r := by
        rcases le_or_lt (exponent r) emin with hc | hc
        · rw [max_eq_right hc] at hlt
          have := le_max_right (exponent q) emin
          omega
        · exact hc
      have hEr : max (exponent r) emin = exponent r := max_eq_left her.le
      rw [hEr] at hlt
      calc rnd p emin q ≤ pow2 (max (exponent q) emin + 1) := rnd_le_pow2 p emin q hpos.ne'
        _ ≤ pow2 (exponent r) := pow2_le_pow2 (by omega)
        _ ≤ rnd p emin r := pow2_le_rnd p hp emin r hr her.le

theorem rep_zero (p : Nat) (emin : Int) : Rep p emin 0 :=
  ⟨0, emin - (p - 1), by simp, le_refl _, by simp⟩

theorem rnd_of_rep (p : Nat) (emin : Int) {q : ℚ} (h : Rep p emin q) : rnd p emin q = q := by
  by_cases hq : q = 0
  · rw [hq, rnd_zero]
  obtain ⟨m, k, hm, hk, rfl⟩ := h
  have habs : |(m : ℚ) * pow2 k| < pow2 (p + k) := by
    rw [abs_mul, abs_of_pos (pow2_pos k), pow2_add, pow2_natCast]
    apply mul_lt_mul_of_pos_right _ (pow2_pos k)
    have : ((|m| : Int) : ℚ) < (((2 : Int) ^ p : Int) : ℚ) := by exact_mod_cast hm
    rwa [Int.cast_abs] at this
  have he := exponent_lt_of_abs_lt _ hq _ habs
  have hk' : max (exponent ((m : ℚ) * pow2 k)) emin - (↑p - 1) ≤ k := by
    rcases max_cases (exponent ((m : ℚ) * pow2 k)) emin with ⟨h1, _⟩ | ⟨h1, _⟩ <;> rw [h1] <;> omega
  obtain ⟨n, hn⟩ := Int.eq_ofNat_of_zero_le (sub_nonneg.mpr hk')
  have hsplit : pow2 k = (((2 : Int) ^ n : Int) : ℚ) *
      pow2 (max (exponent ((m : ℚ) * pow2 k)) emin - (↑p - 1)) := by
    rw [← pow2_natCast, ← pow2_add]
    congr 1
    omega
  unfold rnd
  simp only
  have hu := pow2_pos (max (exponent ((m : ℚ) * pow2 k)) emin - (↑p - 1))
  have hdiv : (m : ℚ) * pow2 k / pow2 (max (exponent ((m : ℚ) * pow2 k)) emin - (↑p - 1)) =
      ((m * (2 : Int) ^ n : Int) : ℚ) := by
    rw [div_eq_iff hu.ne']
    conv_lhs => rw [hsplit]
    push_cast
    ring
  rw [hdiv, round_even_intCast]
  conv_rhs => rw [hsplit]
  push_cast
  ring

theorem rnd_rep (p : Nat) (hp : 1 ≤ p) (emin : Int) (q : ℚ) : Rep p emin (rnd p emin q) := by
  by_cases hq : q = 0
  · rw [hq, rnd_zero]
    exact rep_zero p emin
  have h := abs_div_ulp_lt p emin q hq
  have hlt := abs_lt.mp h
  have h1 : round_even (q / pow2 (max (exponent q) emin - (↑p - 1))) ≤ (2 : Int) ^ p :=
    round_even_le_of_le hlt.2.le
  have h2 : -(2 : Int) ^ p ≤ round_even (q / pow2 (max (exponent q) emin - (↑p - 1))) :=
    le_round_even_of_le (by push_cast; push_cast at hlt; exact hlt.1.le)
  have hone : |(1 : Int)| < 2 ^ p := by
    rw [abs_one]
    exact one_lt_pow₀ (by norm_num) (by omega)
  have hk : emin - (↑p - 1) ≤ max (exponent q) emin - (↑p - 1) := by
    have := le_max_right (exponent q) emin
    omega
  unfold rnd
  simp only
  rcases lt_or_eq_of_le h1 with h1 | h1
  · rcases lt_or_eq_of_le h2 with h2 | h2
    · exact ⟨_, _, abs_lt.mpr ⟨h2, h1⟩, hk, rfl⟩
    · refine ⟨-1, p + (max (exponent q) emin - (↑p - 1)), by simpa using hone, by omega, ?_⟩
      rw [← h2, pow2_add, pow2_natCast]
      push_cast
      ring
  · refine ⟨1, p + (max (exponent q) emin - (↑p - 1)), hone, by omega, ?_⟩
    rw [h1, pow2_add, pow2_natCast]
    push_cast
    ring

theorem rnd_idem (p : Nat) (hp : 1 ≤ p) (emin : Int) (q : ℚ) :
    rnd p emin (rnd p emin q) = rnd p emin q :=
  rnd_of_rep p emin (rnd_rep p hp emin q)

theorem rnd32_mono {q r : ℚ} (hq : 0 ≤ q) (h : q ≤ r) : rnd32 q ≤ rnd32 r :=
  rnd_mono_nonneg 24 (by norm_num) (-126) hq h

theorem rnd32_nonneg {q : ℚ} (h : 0 ≤ q) : 0 ≤ rnd32 q := rnd_nonneg 24 (-126) h

theorem rnd32_zero : rnd32 0 = 0 := rnd_zero 24 (-126)

theorem rnd32_one : rnd32 1 = 1 := by decide!

theorem rnd32_idem (q : ℚ) : rnd32 (rnd32 q) = rnd32 q := rnd_idem 24 (by norm_num) (-126) q

theorem rnd32_le_one {q : ℚ} (hq : 0 ≤ q) (h : q ≤ 1) : rnd32 q ≤ 1 := by
  have := rnd32_mono hq h
  rwa [rnd32_one] at this

theorem one_le_rnd32 {q : ℚ} (h : 1 ≤ q) : 1 ≤ rnd32 q := by
  have := rnd32_mono (by norm_num : (0 : ℚ) ≤ 1) h
  rwa [rnd32_one] at this

theorem round32_ne_nan (q : ℚ) : round32 q ≠ Flt.nan := by
  unfold round32
  split_ifs <;> simp

theorem flt_add_comm (x y : Flt) : Flt.add x y = Flt.add y x := by
  cases x <;> cases y <;> simp [Flt.add, add_comm]

theorem flt_fadd_comm (x y : Flt) : Flt.fadd x y = Flt.fadd y x := by
  unfold Flt.fadd
  rw [flt_add_comm]

theorem flt_max_fin_comm (a b : ℚ) :
    Flt.max (Flt.fin a) (Flt.fin b) = Flt.max (Flt.fin b) (Flt.fin a) := by
  unfold Flt.max Flt.lt
  rcases lt_trichotomy a b with h | h | h
  · simp [h, not_lt.mpr h.le]
  · simp [h]
  · simp [h, not_lt.mpr h.le]

theorem flt_min_comm (x y : Flt) (hx : x ≠ Flt.nan) (hy : y ≠ Flt.nan) :
    Flt.min x y = Flt.min y x := by
  cases x <;> cases y <;> simp_all [Flt.min, Flt.lt]
  rename_i a b
  rcases lt_trichotomy a b with h | h | h
  · simp [h, not_lt.mpr h.le]
  · simp [h]
  · simp [h, not_lt.mpr h.le]

theorem flt_fadd_fin_ne_nan (a b : ℚ) : Flt.fadd (Flt.fin a) (Flt.fin b) ≠ Flt.nan :=
  round32_ne_nan _

/-! ## Reading and writing at `int` indices -/

theorem getI?_eq_some_iff {α : Type} (v : List α) (k : Int) (a : α) :
    getI? v k = some a ↔ 0 ≤ k ∧ v[k.toNat]? = some a := by
  unfold getI?
  by_cases h : 0 ≤ k <;> simp [h]

theorem getI?_bounds {α : Type} {v : List α} {k : Int} {a : α}
    (h : getI? v k = some a) : 0 ≤ k ∧ k < v.length := by
  rw [getI?_eq_some_iff] at h
  obtain ⟨h0, h1⟩ := h
  have := (List.getElem?_eq_some_iff.mp h1).1
  omega

theorem getI?_of_bounds {α : Type} (v : List α) (k : Int)
    (h0 : 0 ≤ k) (h1 : k < v.length) : ∃ a, getI? v k = some a := by
  have hk : k.toNat < v.length := by omega
  exact ⟨v[k.toNat], by rw [getI?_eq_some_iff]; exact ⟨h0, List.getElem?_eq_getElem hk⟩⟩

theorem getI?_set {α : Type} (v : List α) (i k : Int) (a : α) (hi : 0 ≤ i) :
    getI? (v.set i.toNat a) k =
      if k = i then (if i < v.length then some a else none) else getI? v k := by
  unfold getI?
  by_cases hk : 0 ≤ k
  · simp only [hk, if_true, List.getElem?_set]
    by_cases hik : k = i
    · subst hik
      have e : (k.toNat < v.length) = (k < (v.length : Int)) := by
        apply propext
        constructor <;> intro h <;> omega
      simp [e]
    · have : i.toNat ≠ k.toNat := by omega
      simp [this, hik]
  · have : k ≠ i := by omega
    simp [hk, this]

theorem swap_eq_some {v : List (Object ℚ)} {i j : Int} {a b : Object ℚ}
    (ha : getI? v i = some a) (hb : getI? v j = some b) :
    swap v i j = some ((v.set i.toNat b).set j.toNat a) := by
  simp [swap, ha, hb]

theorem swap_length {v v1 : List (Object ℚ)} {i j : Int} (h : swap v i j = some v1) :
    v1.length = v.length := by
  unfold swap at h
  split at h
  · simp only [Option.some.injEq] at h
    subst h
    simp
  · simp at h

theorem swap_get {v v1 : List (Object ℚ)} {i j : Int} (h : swap v i j = some v1) (k : Int) :
    getI? v1 k = if k = j then getI? v i else if k = i then getI? v j else getI? v k := by
  unfold swap at h
  split at h
  · rename_i a b ha hb
    simp only [Option.some.injEq] at h
    subst h
    have hi := getI?_bounds ha
    have hj := getI?_bounds hb
    rw [getI?_set _ _ _ _ hj.1, getI?_set _ _ _ _ hi.1]
    simp only [List.length_set]
    by_cases hkj : k = j
    · simp [hkj, hj.2, ha]
    · by_cases hki : k = i
      · subst hki
        have hne : ¬ (k = j) := hkj
        simp [hne, hi.2, hb]
      · simp [hkj, hki]
  · simp at h

theorem swap_perm {v v1 : List (Object ℚ)} {i j : Int} (h : swap v i j = some v1) :
    v1.Perm v := by
  unfold swap at h
  split at h
  · rename_i a b ha hb
    simp only [Option.some.injEq] at h
    subst h
    have hi := getI?_bounds ha
    have hj := getI?_bounds hb
    rw [getI?_eq_some_iff] at ha hb
    have hin : i.toNat < v.length := by omega
    have hjn : j.toNat < v.length := by omega
    have hai : v[i.toNat] = a := by
      have := ha.2
      rw [List.getElem?_eq_getElem hin] at this
      exact Option.some.inj this
    have hbj : v[j.toNat] = b := by
      have := hb.2
      rw [List.getElem?_eq_getElem hjn] at this
      exact Option.some.inj this
    rw [List.perm_iff_count]
    intro c
    rw [List.count_set _ _ _ _ (by simpa using hjn), List.count_set _ _ _ _ hin]
    by_cases hij : i.toNat = j.toNat
    · have hab : a = b := by rw [← hai, ← hbj]; simp [hij]
      subst hab
      simp only [hij, List.getElem_set_self, hbj]
      have hpos : a = c → 0 < List.count c v := by
        intro hc
        subst hc
        exact List.count_pos_iff.mpr (hbj ▸ List.getElem_mem hjn)
      by_cases hc : a = c
      · have := hpos hc
        simp [hc]
        omega
      · simp [hc]
    · rw [List.getElem_set_ne hij, hai, hbj]
      have hposa : a = c → 0 < List.count c v := by
        intro hc
        subst hc
        exact List.count_pos_iff.mpr (hai ▸ List.getElem_mem hin)
      have hposb : b = c → 0 < List.count c v := by
        intro hc
        subst hc
        exact List.count_pos_iff.mpr (hbj ▸ List.getElem_mem hjn)
      by_cases hca : a = c <;> by_cases hcb : b = c
      · have := hposa hca
        simp [hca, hcb]
        omega
      · have := hposa hca
        simp [hca, hcb]
        omega
      · have := hposb hcb
        simp [hca, hcb]
      · simp [hca, hcb]
  · simp at h

/-! ## The two scanning loops -/

theorem scan_up_spec (v : List (Object ℚ)) (p : ℚ) :
    ∀ (n : Nat) (i k : Int) (ok : Object ℚ), 0 ≤ i → i ≤ k → k - i < n →
      getI? v k = some ok → ok.prob ≤ p →
      ∃ i1, scan_up n v p i = some i1 ∧ i ≤ i1 ∧ i1 ≤ k ∧
        (∀ m o, i ≤ m → m < i1 → getI? v m = some o → p < o.prob) ∧
        (∃ o, getI? v i1 = some o ∧ o.prob ≤ p) := by
  intro n
  induction n with
  | zero =>
    intro i k ok _ hik hn
    simp at hn
    omega
  | succ n ih =>
    intro i k ok h0 hik hn hk hp
    have hkb := getI?_bounds hk
    obtain ⟨o, ho⟩ := getI?_of_bounds v i h0 (by omega)
    by_cases hgt : o.prob > p
    · have hne : i ≠ k := by
        intro e
        subst e
        rw [ho] at hk
        cases hk
        exact absurd hgt (not_lt.mpr hp)
      obtain ⟨i1, h1, h2, h3, h4, h5⟩ :=
        ih (i + 1) k ok (by omega) (by omega) (by push_cast at hn; omega) hk hp
      refine ⟨i1, by simp [scan_up, ho, hgt, h1], by omega, h3, ?_, h5⟩
      intro m o1 hm1 hm2 hmo
      by_cases e : m = i
      · subst e
        rw [ho] at hmo
        cases hmo
        exact hgt
      · exact h4 m o1 (by omega) hm2 hmo
    · refine ⟨i, by simp [scan_up, ho, hgt], le_refl _, hik, ?_, o, ho, not_lt.mp hgt⟩
      intro m o1 hm1 hm2
      omega

theorem scan_down_spec (v : List (Object ℚ)) (p : ℚ) :
    ∀ (n : Nat) (j k : Int) (ok : Object ℚ), j < v.length → k ≤ j → j - k < n →
      getI? v k = some ok → p ≤ ok.prob →
      ∃ j1, scan_down n v p j = some j1 ∧ j1 ≤ j ∧ k ≤ j1 ∧
        (∀ m o, j1 < m → m ≤ j → getI? v m = some o → o.prob < p) ∧
        (∃ o, getI? v j1 = some o ∧ p ≤ o.prob) := by
  intro n
  induction n with
  | zero =>
    intro j k ok _ hkj hn
    simp at hn
    omega
  | succ n ih =>
    intro j k ok hlen hkj hn hk hp
    have hkb := getI?_bounds hk
    obtain ⟨o, ho⟩ := getI?_of_bounds v j (by omega) hlen
    by_cases hlt : o.prob < p
    · have hne : j ≠ k := by
        intro e
        subst e
        rw [ho] at hk
        cases hk
        exact absurd hlt (not_lt.mpr hp)
      obtain ⟨j1, h1, h2, h3, h4, h5⟩ :=
        ih (j - 1) k ok (by omega) (by omega) (by push_cast at hn; omega) hk hp
      refine ⟨j1, by simp [scan_down, ho, hlt, h1], by omega, h3, ?_, h5⟩
      intro m o1 hm1 hm2 hmo
      by_cases e : m = j
      · subst e
        rw [ho] at hmo
        cases hmo
        exact hlt
      · exact h4 m o1 hm1 (by omega) hmo
    · refine ⟨j, by simp [scan_down, ho, hlt], le_refl _, hkj, ?_, o, ho, not_lt.mp hlt⟩
      intro m o1 hm1 hm2
      omega

/-! ## The partition loop -/

theorem partition_step (v0 : List (Object ℚ)) (p : ℚ) (left right : Int)
    (v : List (Object ℚ)) (i j : Int) (inv : PInv v0 v p left right i j) (hij : i ≤ j) :
    ∃ i1 j1, scan_up (v.length + 1) v p i = some i1 ∧
      scan_down (v.length + 1) v p j = some j1 ∧
      i ≤ i1 ∧ i1 ≤ right ∧ left ≤ j1 ∧ j1 ≤ j ∧
      (i1 ≤ j1 → ∃ v1, swap v i1 j1 = some v1 ∧ PInv v0 v1 p left right (i1 + 1) (j1 - 1)) ∧
      (¬ i1 ≤ j1 → PInv v0 v p left right i1 j1) := by
  obtain ⟨⟨ka, oa, ha1, ha2, ha3, ha4⟩, ⟨kb, ob, hb1, hb2, hb3, hb4⟩⟩ := inv.stop hij
  have hlen := inv.len
  have hl := inv.hl
  have hr := inv.hr
  have hi := inv.hi
  have hj := inv.hj
  have hkab := getI?_bounds ha3
  have hkbb := getI?_bounds hb3
  obtain ⟨i1, hs1, hi1a, hi1b, hi1c, oi, hoi, hoip⟩ :=
    scan_up_spec v p (v.length + 1) i ka oa (by omega) ha1 (by push_cast; omega) ha3 ha4
  obtain ⟨j1, hs2, hj1a, hj1b, hj1c, oj, hoj, hojp⟩ :=
    scan_down_spec v p (v.length + 1) j kb ob (by omega) hb2 (by push_cast; omega) hb3 hb4
  refine ⟨i1, j1, hs1, hs2, hi1a, by omega, by omega, hj1a, ?_, ?_⟩
  · intro h1
    obtain ⟨v1, hv1⟩ : ∃ v1, swap v i1 j1 = some v1 := ⟨_, swap_eq_some hoi hoj⟩
    have hget := swap_get hv1
    have inv1 : PInv v0 v1 p left right (i1 + 1) (j1 - 1) := by
      refine
        { len := ?_, perm := ?_, hl := hl, hr := hr, hi := ?_, hj := ?_, hi2 := ?_,
          hj2 := ?_, outside := ?_, sub := ?_, lo := ?_, up := ?_, stop := ?_, prog := ?_ }
      · rw [swap_length hv1, hlen]
      · exact (swap_perm hv1).trans inv.perm
      · omega
      · omega
      · omega
      · omega
      · intro k hk
        rw [hget k, if_neg (by omega), if_neg (by omega)]
        exact inv.outside k hk
      · intro k o hk1 hk2 hko
        rw [hget k] at hko
        split at hko
        · exact inv.sub i1 o (by omega) (by omega) hko
        · split at hko
          · exact inv.sub j1 o (by omega) (by omega) hko
          · exact inv.sub k o hk1 hk2 hko
      · intro k o hk1 hk2 hko
        rw [hget k] at hko
        split at hko
        · rename_i e
          have e1 : i1 = j1 := by omega
          rw [e1, hoj] at hko
          cases hko
          exact hojp
        · split at hko
          · rw [hoj] at hko
            cases hko
            exact hojp
          · by_cases hki : k < i
            · exact inv.lo k o hk1 hki hko
            · exact le_of_lt (hi1c k o (by omega) (by omega) hko)
      · intro k o hk1 hk2 hko
        rw [hget k] at hko
        split at hko
        · rw [hoi] at hko
          cases hko
          exact hoip
        · split at hko
          · rename_i e1 e2
            omega
          · by_cases hkj : j < k
            · exact inv.up k o hkj hk2 hko
            · exact le_of_lt (hj1c k o (by omega) (by omega) hko)
      · intro hle
        refine ⟨⟨j1, oi, by omega, by omega, ?_, hoip⟩, ⟨i1, oj, by omega, by omega, ?_, hojp⟩⟩
        · rw [hget j1, if_pos rfl]
          exact hoi
        · rw [hget i1, if_neg (by omega), if_pos rfl]
          exact hoj
      · right
        constructor <;> omega
    exact ⟨v1, hv1, inv1⟩
  · intro h1
    have inv1 : PInv v0 v p left right i1 j1 := by
      refine
        { len := hlen, perm := inv.perm, hl := hl, hr := hr, hi := ?_, hj := ?_, hi2 := ?_,
          hj2 := ?_, outside := inv.outside, sub := inv.sub, lo := ?_, up := ?_,
          stop := ?_, prog := ?_ }
      · omega
      · omega
      · omega
      · omega
      · intro k o hk1 hk2 hko
        by_cases hki : k < i
        · exact inv.lo k o hk1 hki hko
        · exact le_of_lt (hi1c k o (by omega) hk2 hko)
      · intro k o hk1 hk2 hko
        by_cases hkj : j < k
        · exact inv.up k o hkj hk2 hko
        · exact le_of_lt (hj1c k o hk1 (by omega) hko)
      · intro hle
        omega
      · rcases inv.prog with ⟨e1, e2, km, om, hm1, hm2, hm3, hm4⟩ | h
        · exfalso
          obtain ⟨i3, hs3, _, hi3, _⟩ :=
            scan_up_spec v p (v.length + 1) i km om (by omega) (by omega)
              (by have := getI?_bounds hm3; push_cast; omega) hm3 (le_of_eq hm4)
          obtain ⟨j3, hs4, _, hj3, _⟩ :=
            scan_down_spec v p (v.length + 1) j km om (by omega) (by omega)
              (by have := getI?_bounds hm3; push_cast; omega) hm3 (le_of_eq hm4.symm)
          rw [hs1] at hs3
          rw [hs2] at hs4
          cases hs3
          cases hs4
          omega
        · right
          constructor <;> omega
    exact inv1

theorem partition_loop_spec (v0 : List (Object ℚ)) (p : ℚ) (left right : Int) :
    ∀ (m : Nat) (v : List (Object ℚ)) (i j : Int),
      PInv v0 v p left right i j → j - i + 1 ≤ m →
      ∃ v1 i1 j1, partition_loop (m + 1) v p i j = some (v1, i1, j1) ∧
        PInv v0 v1 p left right i1 j1 ∧ j1 < i1 := by
  intro m
  induction m with
  | zero =>
    intro v i j inv hm
    have hij : ¬ i ≤ j := by
      simp at hm
      omega
    exact ⟨v, i, j, by simp [partition_loop, hij], inv, by omega⟩
  | succ m ih =>
    intro v i j inv hm
    by_cases hij : i ≤ j
    · obtain ⟨i1, j1, hs1, hs2, b1, b2, b3, b4, hswap, hnoswap⟩ :=
        partition_step v0 p left right v i j inv hij
      by_cases h1 : i1 ≤ j1
      · obtain ⟨v1, hv1, inv1⟩ := hswap h1
        obtain ⟨v2, i2, j2, hp2, inv2, hlt2⟩ :=
          ih v1 (i1 + 1) (j1 - 1) inv1 (by push_cast at hm; omega)
        refine ⟨v2, i2, j2, ?_, inv2, hlt2⟩
        rw [partition_loop]
        simp only [hij, if_true, hs1, hs2, h1, hv1]
        exact hp2
      · obtain ⟨v2, i2, j2, hp2, inv2, hlt2⟩ := ih v i1 j1 (hnoswap h1) (by omega)
        refine ⟨v2, i2, j2, ?_, inv2, hlt2⟩
        rw [partition_loop]
        simp only [hij, if_true, hs1, hs2, h1, if_false]
        exact hp2
    · exact ⟨v, i, j, by simp [partition_loop, hij], inv, by omega⟩

/-! ## The recursive sort -/

theorem QPost.of_trivial (v : List (Object ℚ)) (left right : Int) (h : right ≤ left) :
    QPost v v left right where
  len := rfl
  perm := List.Perm.refl _
  outside := fun _ _ => rfl
  sub := fun k o h1 h2 hk => ⟨k, h1, h2, hk⟩
  sorted := by
    intro k1 k2 o1 o2 h1 h2 h3 e1 e2
    have e : k1 = k2 := by omega
    subst e
    rw [e1] at e2
    cases e2
    exact le_refl _

theorem qsort_range_spec :
    ∀ (n : Nat) (v : List (Object ℚ)) (left right : Int),
      0 ≤ left → left ≤ right → right < v.length → right - left + 1 ≤ n →
      ∃ v1, qsort_range n v left right = some v1 ∧ QPost v v1 left right := by
  intro n
  induction n with
  | zero =>
    intro v left right _ h2 _ h4
    simp at h4
    omega
  | succ n ih =>
    intro v left right h1 h2 h3 h4
    have hmid : (left + right).tdiv 2 = (left + right) / 2 :=
      Int.tdiv_eq_ediv (by omega) (by omega)
    obtain ⟨m, hm⟩ := getI?_of_bounds v ((left + right) / 2) (by omega) (by omega)
    have inv0 : PInv v v m.prob left right left right :=
      { len := rfl, perm := List.Perm.refl _, hl := h1, hr := h3, hi := le_refl _,
        hj := le_refl _, hi2 := by omega, hj2 := by omega, outside := fun _ _ => rfl,
        sub := fun k o a b c => ⟨k, a, b, c⟩,
        lo := by
          intro k o a b
          omega
        up := by
          intro k o a b
          omega
        stop := fun _ =>
          ⟨⟨_, m, by omega, by omega, hm, le_refl _⟩, ⟨_, m, by omega, by omega, hm, le_refl _⟩⟩
        prog := Or.inl ⟨rfl, rfl, _, m, by omega, by omega, hm, rfl⟩ }
    obtain ⟨v1, i, j, hp, inv, hji⟩ :=
      partition_loop_spec v m.prob left right (v.length + 1) v left right inv0
        (by push_cast; omega)
    have hprog : left < i ∧ j < right := by
      rcases inv.prog with ⟨e1, e2, _⟩ | h
      · omega
      · exact h
    have hlen1 := inv.len
    have hi2 := inv.hi2
    have hj2 := inv.hj2
    -- the left part
    obtain ⟨v2, hq2, post2⟩ : ∃ v2,
        (if left < j then qsort_range n v1 left j else some v1) = some v2 ∧
          QPost v1 v2 left j := by
      by_cases hlj : left < j
      · obtain ⟨v2, e, q⟩ := ih v1 left j h1 (by omega) (by omega) (by push_cast at h4; omega)
        exact ⟨v2, by simp [hlj, e], q⟩
      · exact ⟨v1, by simp [hlj], QPost.of_trivial v1 left j (by omega)⟩
    have hlen2 := post2.len
    -- the right part
    obtain ⟨v3, hq3, post3⟩ : ∃ v3,
        (if i < right then qsort_range n v2 i right else some v2) = some v3 ∧
          QPost v2 v3 i right := by
      by_cases hir : i < right
      · obtain ⟨v3, e, q⟩ := ih v2 i right (by omega) (by omega) (by omega)
          (by push_cast at h4; omega)
        exact ⟨v3, by simp [hir, e], q⟩
      · exact ⟨v2, by simp [hir], QPost.of_trivial v2 i right (by omega)⟩
    refine ⟨v3, ?_, ?_⟩
    · rw [qsort_range]
      simp only [hmid, hm, hp, hq2]
      exact hq3
    · -- every element left of `i` is at least the pivot, every one right of `j` at most
      have hlow : ∀ k o, left ≤ k → k < i → getI? v3 k = some o → m.prob ≤ o.prob := by
        intro k o a b c
        rw [post3.outside k (Or.inl b)] at c
        by_cases hkj : k ≤ j
        · obtain ⟨k0, c1, c2, c3⟩ := post2.sub k o a hkj c
          exact inv.lo k0 o c1 (by omega) c3
        · rw [post2.outside k (Or.inr (by omega))] at c
          exact inv.lo k o a b c
      have hupp : ∀ k o, j < k → k ≤ right → getI? v3 k = some o → o.prob ≤ m.prob := by
        intro k o a b c
        by_cases hki : i ≤ k
        · obtain ⟨k0, c1, c2, c3⟩ := post3.sub k o hki b c
          rw [post2.outside k0 (Or.inr (by omega))] at c3
          exact inv.up k0 o (by omega) c2 c3
        · rw [post3.outside k (Or.inl (by omega)), post2.outside k (Or.inr a)] at c
          exact inv.up k o a b c
      refine { len := ?_, perm := ?_, outside := ?_, sub := ?_, sorted := ?_ }
      · rw [post3.len, hlen2, hlen1]
      · exact (post3.perm.trans post2.perm).trans inv.perm
      · intro k hk
        rw [post3.outside k (by omega), post2.outside k (by omega)]
        exact inv.outside k hk
      · intro k o a b c
        have h2 : ∃ k2, left ≤ k2 ∧ k2 ≤ right ∧ getI? v2 k2 = some o := by
          by_cases hki : i ≤ k
          · obtain ⟨k0, c1, c2, c3⟩ := post3.sub k o hki b c
            exact ⟨k0, by omega, c2, c3⟩
          · rw [post3.outside k (Or.inl (by omega))] at c
            exact ⟨k, a, b, c⟩
        obtain ⟨k2, a2, b2, c2⟩ := h2
        have h1 : ∃ k1, left ≤ k1 ∧ k1 ≤ right ∧ getI? v1 k1 = some o := by
          by_cases hkj : k2 ≤ j
          · obtain ⟨k0, d1, d2, d3⟩ := post2.sub k2 o a2 hkj c2
            exact ⟨k0, d1, by omega, d3⟩
          · rw [post2.outside k2 (Or.inr (by omega))] at c2
            exact ⟨k2, a2, b2, c2⟩
        obtain ⟨k1, a1, b1, c1⟩ := h1
        exact inv.sub k1 o a1 b1 c1
      · intro k1 k2 o1 o2 a b c e1 e2
        by_cases hA : k2 ≤ j
        · rw [post3.outside k1 (Or.inl (by omega))] at e1
          rw [post3.outside k2 (Or.inl (by omega))] at e2
          exact post2.sorted k1 k2 o1 o2 a b hA e1 e2
        · by_cases hB : i ≤ k1
          · exact post3.sorted k1 k2 o1 o2 hB b c e1 e2
          · exact le_trans (hupp k2 o2 (by omega) c e2) (hlow k1 o1 a (by omega) e1)

theorem qsort_descent_inplace_spec (v : List (Object ℚ)) :
    ∃ out, qsort_descent_inplace v = some out ∧ QPost v out 0 ((v.length : Int) - 1) := by
  unfold qsort_descent_inplace
  by_cases he : v.isEmpty
  · refine ⟨v, by simp [he], ?_⟩
    have : v.length = 0 := by simpa using he
    exact QPost.of_trivial v 0 _ (by omega)
  · have hpos : 0 < v.length := by
      rcases v with _ | ⟨a, t⟩
      · simp at he
      · simp
    obtain ⟨out, e, q⟩ := qsort_range_spec v.length v 0 ((v.length : Int) - 1) (le_refl _)
      (by omega) (by omega) (by omega)
    exact ⟨out, by simp [he, e], q⟩

theorem getI?_natCast {α : Type} (v : List α) (k : Nat) : getI? v (k : Int) = v[k]? := by
  simp [getI?]

/-- Claim C1.  After `qsort_descent_inplace(v)` the scores are non-increasing:
the call returns, and for all indices `i < j` of the result the score at `i`
is at least the score at `j`. -/
theorem qsort_descent_inplace_sorted (v : List (Object ℚ)) :
    ∃ out, qsort_descent_inplace v = some out ∧
      ∀ (i j : Nat) (a b : Object ℚ), i < j → out[i]? = some a → out[j]? = some b →
        a.prob ≥ b.prob := by
  obtain ⟨out, e, q⟩ := qsort_descent_inplace_spec v
  refine ⟨out, e, ?_⟩
  intro i j a b hij ha hb
  have hj : j < out.length := (List.getElem?_eq_some_iff.mp hb).1
  have hlen := q.len
  exact q.sorted (i : Int) (j : Int) a b (by omega) (by omega) (by omega)
    (by rw [getI?_natCast]; exact ha) (by rw [getI?_natCast]; exact hb)

/-- Claim C2.  The sequence left by `qsort_descent_inplace(v)` is a permutation
of the input: the call returns and its result holds the same detections with
the same multiplicities. -/
theorem qsort_descent_inplace_perm (v : List (Object ℚ)) :
    ∃ out, qsort_descent_inplace v = some out ∧ out.Perm v := by
  obtain ⟨out, e, q⟩ := qsort_descent_inplace_spec v
  exact ⟨out, e, q.perm⟩

/-! ## Greedy NMS -/

theorem getI?_map {α β : Type} (f : α → β) (v : List α) (k : Int) :
    getI? (v.map f) k = (getI? v k).map f := by
  unfold getI?
  by_cases h : 0 ≤ k <;> simp [h]

theorem iou_test_eq (a b : Object ℚ) (nt : ℚ) :
    iou_test a b a.rect.val.area b.rect.val.area nt = Flt.lt (Flt.fin nt) (iou a b) := rfl

theorem intersection_area_comm (a b : Object ℚ) :
    intersection_area a b = intersection_area b a := by
  unfold intersection_area Rect_.inter Rect_.val
  simp only
  rw [flt_max_fin_comm a.rect.x, flt_max_fin_comm a.rect.y,
    flt_min_comm (Flt.fadd (Flt.fin a.rect.x) (Flt.fin a.rect.width)) _
      (flt_fadd_fin_ne_nan _ _) (flt_fadd_fin_ne_nan _ _),
    flt_min_comm (Flt.fadd (Flt.fin a.rect.y) (Flt.fin a.rect.height)) _
      (flt_fadd_fin_ne_nan _ _) (flt_fadd_fin_ne_nan _ _)]

theorem iou_comm (a b : Object ℚ) : iou a b = iou b a := by
  unfold iou
  rw [intersection_area_comm a b, flt_fadd_comm a.rect.val.area]

theorem nms_inner_spec (v : List (Object ℚ)) (nt : ℚ) (a : Object ℚ) :
    ∀ (picked : List Int) (keep : Bool), (∀ x ∈ picked, ∃ b, getI? v x = some b) →
      ∃ k, nms_inner v (v.map (fun o => o.rect.val.area)) nt a a.rect.val.area picked keep = some k ∧
        (k = true ↔ keep = true ∧
          ∀ x ∈ picked, ∀ b, getI? v x = some b → Flt.lt (Flt.fin nt) (iou a b) = false) := by
  intro picked
  induction picked with
  | nil =>
    intro keep _
    exact ⟨keep, rfl, by simp⟩
  | cons pj rest ih =>
    intro keep h
    obtain ⟨b, hb⟩ := h pj (List.mem_cons_self _ _)
    obtain ⟨k, hk, hiff⟩ :=
      ih (if iou_test a b a.rect.val.area b.rect.val.area nt then false else keep)
        (fun x hx => h x (List.mem_cons_of_mem _ hx))
    refine ⟨k, ?_, ?_⟩
    · rw [nms_inner]
      simp only [hb, getI?_map, Option.map_some']
      exact hk
    · rw [hiff, iou_test_eq]
      constructor
      · rintro ⟨h1, h2⟩
        by_cases ht : Flt.lt (Flt.fin nt) (iou a b) = true
        · simp [ht] at h1
        · simp only [ht] at h1
          refine ⟨by simpa using h1, ?_⟩
          intro x hx b1 hb1
          rcases List.mem_cons.mp hx with e | hx
          · subst e
            rw [hb] at hb1
            cases hb1
            simpa using ht
          · exact h2 x hx b1 hb1
      · rintro ⟨h1, h2⟩
        have ht := h2 pj (List.mem_cons_self _ _) b hb
        refine ⟨by simp [ht, h1], fun x hx => h2 x (List.mem_cons_of_mem _ hx)⟩

theorem nms_outer_spec (v : List (Object ℚ)) (nt : ℚ) :
    ∀ (is picked : List Int), is.Pairwise (· < ·) →
      (∀ y ∈ is, 0 ≤ y ∧ y < v.length) → (∀ x ∈ picked, ∀ y ∈ is, x < y) →
      (∀ x ∈ picked, 0 ≤ x ∧ x < v.length) →
      ∃ r, nms_outer v (v.map (fun o => o.rect.val.area)) nt is picked = some r ∧
        (∃ s, r = picked ++ s ∧ s.Sublist is) ∧
        ∀ y ∈ is, (y ∈ r ↔ ∀ x ∈ r, x < y → ∀ a b, getI? v y = some a → getI? v x = some b →
          Flt.lt (Flt.fin nt) (iou a b) = false) := by
  intro is
  induction is with
  | nil =>
    intro picked _ _ _ _
    exact ⟨picked, rfl, ⟨[], by simp, List.Sublist.refl _⟩, by simp⟩
  | cons i rest ih =>
    intro picked h1 h2 h3 h4
    have hi := h2 i (List.mem_cons_self _ _)
    obtain ⟨a, ha⟩ := getI?_of_bounds v i hi.1 hi.2
    obtain ⟨k, hk, hkiff⟩ := nms_inner_spec v nt a picked true
      (fun x hx => getI?_of_bounds v x (h4 x hx).1 (h4 x hx).2)
    have hrest : ∀ y ∈ rest, i < y := (List.pairwise_cons.mp h1).1
    obtain ⟨r, hr, ⟨s, hs, hsub⟩, hchar⟩ :=
      ih (if k then picked ++ [i] else picked) (List.pairwise_cons.mp h1).2
        (fun y hy => h2 y (List.mem_cons_of_mem _ hy))
        (by
          intro x hx y hy
          by_cases hkt : k = true
          · simp only [hkt, if_true, List.mem_append, List.mem_singleton] at hx
            rcases hx with hx | hx
            · exact h3 x hx y (List.mem_cons_of_mem _ hy)
            · rw [hx]
              exact hrest y hy
          · simp only [hkt] at hx
            exact h3 x hx y (List.mem_cons_of_mem _ hy))
        (by
          intro x hx
          by_cases hkt : k = true
          · simp only [hkt, if_true, List.mem_append, List.mem_singleton] at hx
            rcases hx with hx | hx
            · exact h4 x hx
            · rw [hx]
              exact hi
          · simp only [hkt] at hx
            exact h4 x hx)
    have hsgt : ∀ x ∈ s, i < x := fun x hx => hrest x (hsub.subset hx)
    have hpl : ∀ x ∈ picked, x < i := fun x hx => h3 x hx i (List.mem_cons_self _ _)
    refine ⟨r, ?_, ?_, ?_⟩
    · rw [nms_outer]
      simp only [ha, getI?_map, Option.map_some', hk]
      exact hr
    · by_cases hkt : k = true
      · refine ⟨i :: s, ?_, hsub.cons₂ i⟩
        rw [hs]
        simp [hkt]
      · refine ⟨s, ?_, hsub.cons i⟩
        rw [hs]
        simp [hkt]
    · intro y hy
      rcases List.mem_cons.mp hy with e | hy
      · subst e
        -- the members of `r` below `y` are the members of `picked`
        have hlow : ∀ x, (x ∈ r ∧ x < y) ↔ x ∈ picked := by
          intro x
          rw [hs]
          by_cases hkt : k = true
          · simp only [hkt, if_true, List.mem_append, List.mem_singleton]
            constructor
            · rintro ⟨(h | h) | h, hlt⟩
              · exact h
              · omega
              · have := hsgt x h
                omega
            · intro h
              exact ⟨Or.inl (Or.inl h), hpl x h⟩
          · simp only [hkt, List.mem_append]
            constructor
            · rintro ⟨h | h, hlt⟩
              · exact h
              · have := hsgt x h
                omega
            · intro h
              exact ⟨Or.inl h, hpl x h⟩
        have hmem : y ∈ r ↔ k = true := by
          rw [hs]
          cases k with
          | true => simp
          | false =>
            simp only [Bool.false_eq_true, if_false, List.mem_append, iff_false, not_or]
            constructor
            · intro h
              have := hpl y h
              omega
            · intro h
              have := hsgt y h
              omega
        rw [hmem, hkiff]
        constructor
        · rintro ⟨_, h⟩ x hx hlt a1 b ha1 hb
          rw [ha] at ha1
          cases ha1
          exact h x ((hlow x).mp ⟨hx, hlt⟩) b hb
        · intro h
          refine ⟨rfl, ?_⟩
          intro x hx b hb
          have := (hlow x).mpr hx
          exact h x this.1 this.2 a b ha hb
      · exact hchar y hy

theorem range_cast_pairwise (n : Nat) :
    ((List.range n).map Int.ofNat).Pairwise (· < ·) := by
  rw [List.pairwise_map]
  exact (List.pairwise_lt_range n).imp (by intro a b h; exact Int.ofNat_lt.mpr h)

theorem mem_range_cast (n : Nat) (y : Int) :
    y ∈ (List.range n).map Int.ofNat ↔ 0 ≤ y ∧ y < n := by
  simp only [List.mem_map, List.mem_range]
  constructor
  · rintro ⟨a, h1, h2⟩
    subst h2
    exact ⟨Int.ofNat_nonneg a, Int.ofNat_lt.mpr h1⟩
  · rintro ⟨h1, h2⟩
    exact ⟨y.toNat, by omega, by simp [Int.toNat_of_nonneg h1]⟩

theorem nms_sorted_bboxes_spec (v : List (Object ℚ)) (picked0 : List Int) (nt : ℚ) :
    ∃ r, nms_sorted_bboxes v picked0 nt = some r ∧
      r.Sublist ((List.range v.length).map Int.ofNat) ∧
      ∀ y : Int, 0 ≤ y → y < v.length →
        (y ∈ r ↔ ∀ x ∈ r, x < y → ∀ a b, getI? v y = some a → getI? v x = some b →
          Flt.lt (Flt.fin nt) (iou a b) = false) := by
  obtain ⟨r, hr, ⟨s, hs, hsub⟩, hchar⟩ :=
    nms_outer_spec v nt ((List.range v.length).map Int.ofNat) [] (range_cast_pairwise _)
      (fun y hy => (mem_range_cast _ y).mp hy) (by simp) (by simp)
  refine ⟨r, hr, ?_, ?_⟩
  · rw [hs]
    simpa using hsub
  · intro y h0 h1
    exact hchar y ((mem_range_cast _ y).mpr ⟨h0, h1⟩)

theorem filterMap_getElem?_range {α : Type} (v : List α) :
    (List.range v.length).filterMap (fun k : Nat => v[k]?) = v := by
  induction v with
  | nil => rfl
  | cons a t ih =>
    rw [List.length_cons, List.range_succ_eq_map, List.filterMap_cons]
    simp only [List.getElem?_cons_zero, List.filterMap_map]
    congr 1
    have e : ((fun k : Nat => (a :: t)[k]?) ∘ Nat.succ) = fun k : Nat => t[k]? := by
      funext k
      simp
    rw [e]
    exact ih

theorem filterMap_getI?_range {α : Type} (v : List α) :
    ((List.range v.length).map Int.ofNat).filterMap (getI? v) = v := by
  rw [List.filterMap_map]
  have e : (getI? v ∘ Int.ofNat) = fun k : Nat => v[k]? := by
    funext k
    exact getI?_natCast v k
  rw [e]
  exact filterMap_getElem?_range v

theorem map_eq_map_some_filterMap {α β : Type} (f : α → Option β) (l : List α)
    (h : ∀ x ∈ l, ∃ b, f x = some b) : l.map f = (l.filterMap f).map some := by
  induction l with
  | nil => rfl
  | cons a t ih =>
    obtain ⟨b, hb⟩ := h a (List.mem_cons_self _ _)
    rw [List.map_cons, List.filterMap_cons, hb, List.map_cons,
      ih (fun x hx => h x (List.mem_cons_of_mem _ hx))]

/-- Claim C3.  `nms_sorted_bboxes` never keeps two detections that overlap too
much: for any two distinct indices of the returned `picked` list the IoU of the
two detections, `inter / (area + area - inter)`, is not strictly greater than
the threshold. -/
theorem nms_sorted_bboxes_no_overlap (v : List (Object ℚ)) (picked0 : List Int) (nt : ℚ) :
    ∃ picked, nms_sorted_bboxes v picked0 nt = some picked ∧
      ∀ i ∈ picked, ∀ j ∈ picked, i ≠ j → ∀ a b, getI? v i = some a → getI? v j = some b →
        Flt.lt (Flt.fin nt)
          (Flt.fdiv (intersection_area a b)
            (Flt.fsub (Flt.fadd a.rect.val.area b.rect.val.area) (intersection_area a b))) = false := by
  obtain ⟨r, hr, hsub, hchar⟩ := nms_sorted_bboxes_spec v picked0 nt
  refine ⟨r, hr, ?_⟩
  intro i hi j hj hne a b ha hb
  have hbi := (mem_range_cast _ i).mp (hsub.subset hi)
  have hbj := (mem_range_cast _ j).mp (hsub.subset hj)
  change Flt.lt (Flt.fin nt) (iou a b) = false
  rcases lt_or_gt_of_ne hne with hlt | hgt
  · rw [iou_comm]
    exact (hchar j hbj.1 hbj.2).mp hj i hi hlt b a hb ha
  · exact (hchar i hbi.1 hbi.2).mp hi j hj hgt a b ha hb

/-- Claim C4.  The `picked` list returned by `nms_sorted_bboxes` does not depend
on the previous contents of `picked`; it is a strictly increasing list of
indices in `[0, n)`, so the kept detections are a subsequence of the input in
input order, and when the input is score-descending the kept scores are
non-increasing. -/
theorem nms_sorted_bboxes_picked_increasing (v : List (Object ℚ)) (picked0 : List Int)
    (nt : ℚ) :
    ∃ picked, nms_sorted_bboxes v picked0 nt = some picked ∧
      nms_sorted_bboxes v [] nt = some picked ∧
      picked.Pairwise (· < ·) ∧
      (∀ i ∈ picked, 0 ≤ i ∧ i < v.length) ∧
      ∃ kept : List (Object ℚ), picked.map (getI? v) = kept.map some ∧ kept.Sublist v ∧
        (v.Pairwise (fun a b => a.prob ≥ b.prob) →
          kept.Pairwise (fun a b => a.prob ≥ b.prob)) := by
  obtain ⟨r, hr, hsub, _⟩ := nms_sorted_bboxes_spec v picked0 nt
  have hin : ∀ i ∈ r, 0 ≤ i ∧ i < v.length := fun i hi => (mem_range_cast _ i).mp (hsub.subset hi)
  have hkept : (r.filterMap (getI? v)).Sublist v := by
    have := hsub.filterMap (getI? v)
    rwa [filterMap_getI?_range] at this
  refine ⟨r, hr, hr, (range_cast_pairwise _).sublist hsub, hin, r.filterMap (getI? v), ?_,
    hkept, fun h => h.sublist hkept⟩
  exact map_eq_map_some_filterMap _ _ (fun x hx => getI?_of_bounds v x (hin x hx).1 (hin x hx).2)

/-- Claim C5.  `nms_sorted_bboxes` discards a candidate only when it is
suppressed: every index that is not picked has an earlier picked index whose
IoU with it is strictly greater than the threshold; a candidate whose IoU with
every earlier picked detection is not greater than the threshold (equality
included) is picked, and index 0 is picked whenever the input is non-empty. -/
theorem nms_sorted_bboxes_discards_only_suppressed (v : List (Object ℚ))
    (picked0 : List Int) (nt : ℚ) :
    ∃ picked, nms_sorted_bboxes v picked0 nt = some picked ∧
      (∀ i : Int, 0 ≤ i → i < v.length → i ∉ picked →
        ∃ j ∈ picked, j < i ∧ ∃ a b, getI? v i = some a ∧ getI? v j = some b ∧
          Flt.lt (Flt.fin nt)
            (Flt.fdiv (intersection_area a b)
              (Flt.fsub (Flt.fadd a.rect.val.area b.rect.val.area) (intersection_area a b))) = true) ∧
      (∀ i : Int, 0 ≤ i → i < v.length →
        (∀ j ∈ picked, j < i → ∀ a b, getI? v i = some a → getI? v j = some b →
          Flt.lt (Flt.fin nt)
            (Flt.fdiv (intersection_area a b)
              (Flt.fsub (Flt.fadd a.rect.val.area b.rect.val.area) (intersection_area a b))) = false) →
        i ∈ picked) ∧
      (v ≠ [] → (0 : Int) ∈ picked) := by
  obtain ⟨r, hr, hsub, hchar⟩ := nms_sorted_bboxes_spec v picked0 nt
  have hin : ∀ i ∈ r, 0 ≤ i ∧ i < v.length := fun i hi => (mem_range_cast _ i).mp (hsub.subset hi)
  refine ⟨r, hr, ?_, ?_, ?_⟩
  · intro i h0 h1 hni
    by_contra hcon
    apply hni
    refine (hchar i h0 h1).mpr ?_
    intro x hx hlt a b ha hb
    by_contra ht
    exact hcon ⟨x, hx, hlt, a, b, ha, hb, by simpa [iou] using ht⟩
  · intro i h0 h1 h
    exact (hchar i h0 h1).mpr h
  · intro hne
    have hpos : 0 < v.length := List.length_pos.mpr hne
    refine (hchar 0 (le_refl _) (by omega)).mpr ?_
    intro x hx hlt
    have := (hin x hx).1
    omega

/-- An instance of claim C4 on a score-descending pair of detections. -/
theorem nms_sorted_bboxes_picked_increasing_witness :
    ∃ picked,
      nms_sorted_bboxes [⟨⟨0, 0, 2, 2⟩, 1, 1⟩, ⟨⟨5, 5, 2, 2⟩, 0, 1 / 2⟩] [] (1 / 2) =
        some picked ∧
      ∃ kept : List (Object ℚ), picked.map (getI? [⟨⟨0, 0, 2, 2⟩, 1, 1⟩, ⟨⟨5, 5, 2, 2⟩, 0, 1 / 2⟩])
          = kept.map some ∧
        kept.Pairwise (fun a b => a.prob ≥ b.prob) := by
  obtain ⟨picked, h1, _, _, _, kept, h2, _, h3⟩ :=
    nms_sorted_bboxes_picked_increasing [⟨⟨0, 0, 2, 2⟩, 1, 1⟩, ⟨⟨5, 5, 2, 2⟩, 0, 1 / 2⟩] [] (1 / 2)
  exact ⟨picked, h1, kept, h2, h3 (by norm_num)⟩

/-- An instance of claim C5: two identical boxes have IoU exactly 1, and with
threshold 1 both are picked. -/
theorem nms_sorted_bboxes_discards_only_suppressed_witness :
    ∃ picked,
      nms_sorted_bboxes [⟨⟨0, 0, 2, 2⟩, 1, 1⟩, ⟨⟨0, 0, 2, 2⟩, 0, 1 / 2⟩] [] 1 = some picked ∧
      (0 : Int) ∈ picked := by
  obtain ⟨picked, h1, _, _, h2⟩ :=
    nms_sorted_bboxes_discards_only_suppressed
      [⟨⟨0, 0, 2, 2⟩, 1, 1⟩, ⟨⟨0, 0, 2, 2⟩, 0, 1 / 2⟩] [] 1
  exact ⟨picked, h1, h2 (by simp)⟩

/-- Two evaluations at the threshold.  For the boxes `(0, 0, 4, 5)` and
`(0, 0, 3, 3)` the quotient `9 / 20` is rounded to the single-precision number
nearest to 0.45, which is the threshold, so the second box is kept although
`9 / 20` itself is greater than that number.  For the boxes
`(0, 0, 474.375, 213.125)` and `(0, 0, 474.375, 106.5625)` the exact IoU is
`1 / 2`, the threshold, but the union area is rounded and the quotient computed
is `1 / 2 + 2^-24`, so the second box is discarded. -/
theorem nms_sorted_bboxes_at_threshold :
    rnd32 (9 / 20) < 9 / 20 ∧
      nms_sorted_bboxes [⟨⟨0, 0, 4, 5⟩, 0, 1⟩, ⟨⟨0, 0, 3, 3⟩, 0, 1 / 2⟩] [] (rnd32 (9 / 20)) =
        some [0, 1] ∧
      iou ⟨⟨0, 0, 3795 / 8, 1705 / 8⟩, 0, 1⟩ ⟨⟨0, 0, 3795 / 8, 1705 / 16⟩, 0, 1 / 2⟩ =
        Flt.fin (1 / 2 + 1 / 2 ^ 24) ∧
      nms_sorted_bboxes
        [⟨⟨0, 0, 3795 / 8, 1705 / 8⟩, 0, 1⟩, ⟨⟨0, 0, 3795 / 8, 1705 / 16⟩, 0, 1 / 2⟩] []
        (1 / 2) = some [0] := by
  decide!

/-! ## Detection decoder -/

theorem foldlM_push {α β : Type} (f : List β → α → Option (List β)) (g : α → List β)
    (hf : ∀ objs x, f objs x = some (objs ++ g x)) :
    ∀ (l : List α) (init : List β), l.foldlM f init = some (init ++ l.flatMap g) := by
  intro l
  induction l with
  | nil =>
    intro init
    simp
  | cons a t ih =>
    intro init
    rw [List.foldlM_cons, hf]
    simp only [Option.bind_eq_bind, Option.some_bind]
    rw [ih]
    simp

theorem filter_map_flatMap {α β γ : Type} (f : α → List β) (p : β → Bool) (g : β → γ)
    (l : List α) :
    ((l.flatMap f).filter p).map g = l.flatMap (fun x => ((f x).filter p).map g) := by
  induction l with
  | nil => rfl
  | cons a t ih => simp [List.flatMap_cons, ih]

theorem anchor_group_of_eq (stride g : Int)
    (h : (stride = 8 ∧ g = 0) ∨ (stride = 16 ∧ g = 1) ∨ (stride = 32 ∧ g = 2)) :
    anchor_group_of stride = some (g + 1) := by
  rcases h with ⟨h1, h2⟩ | ⟨h1, h2⟩ | ⟨h1, h2⟩ <;> subst h1 <;> subst h2 <;> rfl

theorem proposal_cell_eq (expf : ℚ → NNRat) (stride : Int) (feat : Int → ℚ) (t : ℚ)
    (anchors : Int → ℚ) (g feat_w feat_h : Int) (objs : List (Object ℚ)) (h w a : Int) :
    proposal_cell expf stride feat t anchors (some g) feat_w feat_h objs h w a =
      some (objs ++
        (if t ≤ cell_score expf feat (cell_offset feat_w feat_h h w a) then
          [cell_object expf stride feat anchors g (cell_offset feat_w feat_h h w a) h w a]
        else [])) := by
  unfold proposal_cell
  by_cases hc : t ≤ cell_score expf feat (cell_offset feat_w feat_h h w a)
  · simp [hc]
  · simp [hc]

theorem generate_proposals_eq (expf : ℚ → NNRat) (stride : Int) (feat : Int → ℚ) (t : ℚ)
    (objects : List (Object ℚ)) (lc lr : Int) (anchors : Int → ℚ) (g : Int)
    (hs : (stride = 8 ∧ g = 0) ∨ (stride = 16 ∧ g = 1) ∨ (stride = 32 ∧ g = 2)) :
    generate_proposals expf stride feat t objects lc lr anchors =
      some (objects ++
        ((cells (lr.tdiv stride).toNat (lc.tdiv stride).toNat).filter
          (fun c => decide (t ≤ cell_score expf feat
            (cell_offset (lc.tdiv stride) (lr.tdiv stride) c.1 c.2.1 c.2.2)))).map
          (fun c => cell_object expf stride feat anchors (g + 1)
            (cell_offset (lc.tdiv stride) (lr.tdiv stride) c.1 c.2.1 c.2.2) c.1 c.2.1 c.2.2)) := by
  have hne : stride ≠ 0 := by
    rcases hs with ⟨h1, _⟩ | ⟨h1, _⟩ | ⟨h1, _⟩ <;> omega
  unfold generate_proposals
  rw [if_neg hne, anchor_group_of_eq stride g hs]
  simp only
  have inner : ∀ (h w : Nat) (objs : List (Object ℚ)),
      (List.range 3).foldlM
        (fun objects (a : Nat) =>
          proposal_cell expf stride feat t anchors (some (g + 1)) (lc.tdiv stride)
            (lr.tdiv stride) objects h w a) objs =
        some (objs ++ (List.range 3).flatMap (fun a : Nat =>
          if t ≤ cell_score expf feat (cell_offset (lc.tdiv stride) (lr.tdiv stride) h w a) then
            [cell_object expf stride feat anchors (g + 1)
              (cell_offset (lc.tdiv stride) (lr.tdiv stride) h w a) h w a]
          else [])) :=
    fun h w objs =>
      foldlM_push _ _ (fun objs (a : Nat) => proposal_cell_eq _ _ _ _ _ _ _ _ objs h w a) _ objs
  have middle : ∀ (h : Nat) (objs : List (Object ℚ)),
      (List.range (lc.tdiv stride).toNat).foldlM
        (fun objects (w : Nat) =>
          (List.range 3).foldlM
            (fun objects (a : Nat) =>
              proposal_cell expf stride feat t anchors (some (g + 1)) (lc.tdiv stride)
                (lr.tdiv stride) objects h w a) objects) objs =
        some (objs ++ (List.range (lc.tdiv stride).toNat).flatMap (fun w : Nat =>
          (List.range 3).flatMap (fun a : Nat =>
            if t ≤ cell_score expf feat (cell_offset (lc.tdiv stride) (lr.tdiv stride) h w a) then
              [cell_object expf stride feat anchors (g + 1)
                (cell_offset (lc.tdiv stride) (lr.tdiv stride) h w a) h w a]
            else []))) :=
    fun h objs => foldlM_push _ _ (fun objs (w : Nat) => inner h w objs) _ objs
  rw [foldlM_push _ _ (fun objs h => middle h objs)]
  congr 2
  unfold cells
  rw [filter_map_flatMap]
  congr 1
  funext h
  rw [filter_map_flatMap]
  congr 1
  funext w
  induction (List.range 3) with
  | nil => rfl
  | cons a t ih =>
    rw [List.flatMap_cons, List.map_cons, List.filter_cons, ih]
    simp only [decide_eq_true_eq]
    split <;> simp

theorem class_scan_inv (feat : Int → ℚ) (offset : Int) (init : ℚ) :
    ∀ n : Nat,
      (∀ s : Nat, s < n →
        feat (offset + s + 5) ≤
          ((List.range n).foldl
            (fun (st : Int × ℚ) (s : Nat) =>
              if feat (offset + s + 5) > st.2 then ((s : Int), feat (offset + s + 5)) else st)
            (0, init)).2) ∧
      (((List.range n).foldl
            (fun (st : Int × ℚ) (s : Nat) =>
              if feat (offset + s + 5) > st.2 then ((s : Int), feat (offset + s + 5)) else st)
            (0, init)) = (0, init) ∨
        ∃ L : Nat, L < n ∧
          ((List.range n).foldl
            (fun (st : Int × ℚ) (s : Nat) =>
              if feat (offset + s + 5) > st.2 then ((s : Int), feat (offset + s + 5)) else st)
            (0, init)) = ((L : Int), feat (offset + L + 5)) ∧
          ∀ s : Nat, s < L → feat (offset + s + 5) < feat (offset + L + 5)) := by
  intro n
  induction n with
  | zero => simp
  | succ n ih =>
    rw [List.range_succ, List.foldl_append]
    generalize (List.range n).foldl
      (fun (st : Int × ℚ) (s : Nat) =>
        if feat (offset + s + 5) > st.2 then ((s : Int), feat (offset + s + 5)) else st)
      (0, init) = st at ih
    obtain ⟨ih1, ih2⟩ := ih
    simp only [List.foldl_cons, List.foldl_nil]
    by_cases hgt : feat (offset + n + 5) > st.2
    · rw [if_pos hgt]
      refine ⟨?_, Or.inr ⟨n, Nat.lt_succ_self n, rfl, ?_⟩⟩
      · intro s hs
        rcases Nat.lt_succ_iff_lt_or_eq.mp hs with h | h
        · exact le_of_lt (lt_of_le_of_lt (ih1 s h) hgt)
        · subst h
          exact le_refl _
      · intro s hs
        exact lt_of_le_of_lt (ih1 s hs) hgt
    · rw [if_neg hgt]
      refine ⟨?_, ?_⟩
      · intro s hs
        rcases Nat.lt_succ_iff_lt_or_eq.mp hs with h | h
        · exact ih1 s h
        · subst h
          exact not_lt.mp hgt
      · rcases ih2 with h | ⟨L, hL, e, hlt⟩
        · exact Or.inl h
        · exact Or.inr ⟨L, Nat.lt_succ_of_lt hL, e, hlt⟩

theorem class_scan_first_max (feat : Int → ℚ) (offset : Int)
    (hfin : ∀ s : Nat, s < 80 → -FLT_MAX ≤ feat (offset + s + 5)) :
    ∃ L : Nat, L < 80 ∧ (class_scan feat offset).1 = (L : Int) ∧
      (class_scan feat offset).2 = feat (offset + L + 5) ∧
      (∀ s : Nat, s < 80 → feat (offset + s + 5) ≤ feat (offset + L + 5)) ∧
      (∀ s : Nat, s < L → feat (offset + s + 5) < feat (offset + L + 5)) := by
  obtain ⟨h1, h2⟩ := class_scan_inv feat offset (-FLT_MAX) 80
  unfold class_scan
  simp only
  rcases h2 with h | ⟨L, hL, e, hlt⟩
  · rw [h] at h1
    rw [h]
    have h0 : feat (offset + (0 : Nat) + 5) = -FLT_MAX :=
      le_antisymm (h1 0 (by norm_num)) (hfin 0 (by norm_num))
    refine ⟨0, by norm_num, rfl, h0.symm, ?_, ?_⟩
    · intro s hs
      rw [h0]
      exact h1 s hs
    · intro s hs
      omega
  · rw [e] at h1
    rw [e]
    exact ⟨L, hL, rfl, rfl, h1, hlt⟩

theorem proposal_cell_emit {expf : ℚ → NNRat} {stride : Int} {feat : Int → ℚ} {t : ℚ}
    {anchors : Int → ℚ} {ag : Option Int} {feat_w feat_h : Int} {objs : List (Object ℚ)}
    {h w a : Int} {o : Object ℚ}
    (hemit : proposal_cell expf stride feat t anchors ag feat_w feat_h objs h w a =
      some (objs ++ [o])) :
    ∃ g, ag = some g ∧ t ≤ cell_score expf feat (cell_offset feat_w feat_h h w a) ∧
      o = cell_object expf stride feat anchors g (cell_offset feat_w feat_h h w a) h w a := by
  unfold proposal_cell at hemit
  simp only at hemit
  split at hemit
  · rename_i hc
    rcases ag with _ | g
    · simp at hemit
    · simp only [Option.some.injEq] at hemit
      have := List.append_cancel_left hemit
      simp only [List.cons.injEq, and_true] at this
      exact ⟨g, rfl, hc, this.symm⟩
  · simp at hemit

theorem cell_object_label (expf : ℚ → NNRat) (stride : Int) (feat : Int → ℚ)
    (anchors : Int → ℚ) (g offset h w a : Int) :
    (cell_object expf stride feat anchors g offset h w a).label =
      (class_scan feat offset).1 := by
  simp only [cell_object]

theorem cell_object_prob (expf : ℚ → NNRat) (stride : Int) (feat : Int → ℚ)
    (anchors : Int → ℚ) (g offset h w a : Int) :
    (cell_object expf stride feat anchors g offset h w a).prob =
      rnd32 (sigmoid expf (feat (offset + 4)) * sigmoid expf (class_scan feat offset).2) := by
  simp only [cell_object, cell_score]

theorem sigmoid_divisor_ge_one (expf : ℚ → NNRat) (x : ℚ) :
    1 ≤ rnd32 (1 + (expf (-x) : ℚ)) := by
  have : (0 : ℚ) ≤ (expf (-x) : ℚ) := (expf (-x)).2
  exact one_le_rnd32 (by linarith)

theorem sigmoid_nonneg (expf : ℚ → NNRat) (x : ℚ) : 0 ≤ sigmoid expf x := by
  unfold sigmoid
  simp only
  split
  · exact le_refl _
  · have := sigmoid_divisor_ge_one expf x
    exact rnd32_nonneg (by positivity)

theorem sigmoid_le_one (expf : ℚ → NNRat) (x : ℚ) : sigmoid expf x ≤ 1 := by
  unfold sigmoid
  simp only
  split
  · norm_num
  · have h := sigmoid_divisor_ge_one expf x
    apply rnd32_le_one (by positivity)
    rw [div_le_one (by linarith)]
    exact h

theorem sigmoid_rounded (expf : ℚ → NNRat) (x : ℚ) : rnd32 (sigmoid expf x) = sigmoid expf x := by
  unfold sigmoid
  simp only
  split
  · exact rnd32_zero
  · exact rnd32_idem _

theorem cell_score_nonneg (expf : ℚ → NNRat) (feat : Int → ℚ) (offset : Int) :
    0 ≤ cell_score expf feat offset := by
  unfold cell_score
  exact rnd32_nonneg (mul_nonneg (sigmoid_nonneg _ _) (sigmoid_nonneg _ _))

/-- Claim C6.  For a stride in {8, 16, 32}, `generate_proposals` returns the
previous content of `objects` followed by exactly one detection for each cell
`(h, w, a)` whose final score `sigmoid(objectness) * sigmoid(best class)` is at
least the threshold and none for the other cells, in the order `h` outermost,
then `w`, then `a`; the score of each emitted detection is that product, and
the number of appended detections is the number of such cells.  The sigmoids
and their product are the single-precision values the code computes. -/
theorem generate_proposals_emits (expf : ℚ → NNRat) (stride : Int) (feat : Int → ℚ) (t : ℚ)
    (objects : List (Object ℚ)) (lc lr : Int) (anchors : Int → ℚ)
    (hs : stride = 8 ∨ stride = 16 ∨ stride = 32) :
    ∃ g : Int, anchor_group_of stride = some g ∧
      generate_proposals expf stride feat t objects lc lr anchors =
        some (objects ++
          ((cells (lr.tdiv stride).toNat (lc.tdiv stride).toNat).filter
            (fun c => decide (t ≤
              rnd32 (sigmoid expf
                  (feat (cell_offset (lc.tdiv stride) (lr.tdiv stride) c.1 c.2.1 c.2.2 + 4)) *
                sigmoid expf
                  (class_scan feat
                    (cell_offset (lc.tdiv stride) (lr.tdiv stride) c.1 c.2.1 c.2.2)).2)))).map
            (fun c => cell_object expf stride feat anchors g
              (cell_offset (lc.tdiv stride) (lr.tdiv stride) c.1 c.2.1 c.2.2) c.1 c.2.1 c.2.2)) ∧
      (∀ offset h w a : Int,
        (cell_object expf stride feat anchors g offset h w a).prob =
          rnd32 (sigmoid expf (feat (offset + 4)) * sigmoid expf (class_scan feat offset).2)) ∧
      ∀ out, generate_proposals expf stride feat t objects lc lr anchors = some out →
        out.length = objects.length +
          (cells (lr.tdiv stride).toNat (lc.tdiv stride).toNat).countP
            (fun c => decide (t ≤
              rnd32 (sigmoid expf
                  (feat (cell_offset (lc.tdiv stride) (lr.tdiv stride) c.1 c.2.1 c.2.2 + 4)) *
                sigmoid expf
                  (class_scan feat
                    (cell_offset (lc.tdiv stride) (lr.tdiv stride) c.1 c.2.1 c.2.2)).2))) := by
  obtain ⟨g, hg⟩ : ∃ g : Int, (stride = 8 ∧ g = 0) ∨ (stride = 16 ∧ g = 1) ∨
      (stride = 32 ∧ g = 2) := by
    rcases hs with h | h | h
    · exact ⟨0, Or.inl ⟨h, rfl⟩⟩
    · exact ⟨1, Or.inr (Or.inl ⟨h, rfl⟩)⟩
    · exact ⟨2, Or.inr (Or.inr ⟨h, rfl⟩)⟩
  have heq := generate_proposals_eq expf stride feat t objects lc lr anchors g hg
  refine ⟨g + 1, anchor_group_of_eq stride g hg, heq, fun _ _ _ _ => cell_object_prob _ _ _ _ _ _ _ _ _, ?_⟩
  intro out hout
  rw [heq] at hout
  cases hout
  rw [List.length_append, List.length_map, List.countP_eq_length_filter]
  rfl

/-- Claim C7.  For a cell that `generate_proposals` emits, the label is the
smallest class index in `[0, 80)` whose raw class channel equals the maximum of
the 80 class channels of the cell, and the class score used in the detection
score, the single-precision product of the two sigmoids, is that maximum.  The
buffer holds values of type `float`. -/
theorem proposal_cell_label_first_max (expf : ℚ → NNRat) (stride : Int) (feat : Int → ℚ)
    (t : ℚ) (anchors : Int → ℚ) (ag : Option Int) (feat_w feat_h : Int)
    (objs : List (Object ℚ)) (h w a : Int) (o : Object ℚ)
    (hfloat : ∀ k : Int, is_float (feat k))
    (hemit : proposal_cell expf stride feat t anchors ag feat_w feat_h objs h w a =
      some (objs ++ [o])) :
    ∃ L : Nat, L < 80 ∧ o.label = (L : Int) ∧
      (∀ s : Nat, s < 80 →
        feat (cell_offset feat_w feat_h h w a + s + 5) ≤
          feat (cell_offset feat_w feat_h h w a + L + 5)) ∧
      (∀ s : Nat, s < L →
        feat (cell_offset feat_w feat_h h w a + s + 5) <
          feat (cell_offset feat_w feat_h h w a + L + 5)) ∧
      o.prob = rnd32 (sigmoid expf (feat (cell_offset feat_w feat_h h w a + 4)) *
        sigmoid expf (feat (cell_offset feat_w feat_h h w a + L + 5))) := by
  obtain ⟨g, _, _, ho⟩ := proposal_cell_emit hemit
  obtain ⟨L, h1, h2, h3, h4, h5⟩ := class_scan_first_max feat _ (fun s _ => (hfloat _).1)
  refine ⟨L, h1, ?_, h4, h5, ?_⟩
  · rw [ho, cell_object_label]
    exact h2
  · rw [ho, cell_object_prob, h3]

/-- Claim C8.  For an emitted cell `(h, w, a)` at stride 8, 16 or 32 with
stride group `g = 0, 1, 2`, the rectangle has width
`sigmoid(dw)^2 * 4 * anchors[g*6 + a*2]`, height
`sigmoid(dh)^2 * 4 * anchors[g*6 + a*2 + 1]` and centre
`((sigmoid(dx)*2 - 0.5 + w) * stride, (sigmoid(dy)*2 - 0.5 + h) * stride)`,
where `dx, dy, dw, dh` are the first four channels of the cell. -/
theorem proposal_cell_rect (expf : ℚ → NNRat) (stride g : Int) (feat : Int → ℚ)
    (t : ℚ) (anchors : Int → ℚ) (feat_w feat_h : Int)
    (objs : List (Object ℚ)) (h w a : Int) (o : Object ℚ)
    (hg : (stride = 8 ∧ g = 0) ∨ (stride = 16 ∧ g = 1) ∨ (stride = 32 ∧ g = 2))
    (hemit : proposal_cell expf stride feat t anchors (anchor_group_of stride) feat_w feat_h
      objs h w a = some (objs ++ [o])) :
    o.rect.width =
        sigmoid expf (feat (cell_offset feat_w feat_h h w a + 2)) ^ 2 * 4 *
          anchors (g * 6 + a * 2 + 0) ∧
      o.rect.height =
        sigmoid expf (feat (cell_offset feat_w feat_h h w a + 3)) ^ 2 * 4 *
          anchors (g * 6 + a * 2 + 1) ∧
      o.rect.x + o.rect.width / 2 =
        (sigmoid expf (feat (cell_offset feat_w feat_h h w a + 0)) * 2 - 1 / 2 + w) * stride ∧
      o.rect.y + o.rect.height / 2 =
        (sigmoid expf (feat (cell_offset feat_w feat_h h w a + 1)) * 2 - 1 / 2 + h) * stride := by
  rw [anchor_group_of_eq stride g hg] at hemit
  obtain ⟨g1, hg1, _, ho⟩ := proposal_cell_emit hemit
  cases hg1
  have e0 : (g + 1 - 1) * 6 + a * 2 + 0 = g * 6 + a * 2 + 0 := by ring
  have e1 : (g + 1 - 1) * 6 + a * 2 + 1 = g * 6 + a * 2 + 1 := by ring
  rw [ho]
  unfold cell_object
  simp only [e0, e1]
  refine ⟨by ring, by ring, by ring, by ring⟩

theorem proposal_cell_emits_at_zero (expf : ℚ → NNRat) (stride : Int) (feat : Int → ℚ)
    (anchors : Int → ℚ) (g feat_w feat_h : Int) (objs : List (Object ℚ)) (h w a : Int) :
    proposal_cell expf stride feat 0 anchors (some g) feat_w feat_h objs h w a =
      some (objs ++
        [cell_object expf stride feat anchors g (cell_offset feat_w feat_h h w a) h w a]) := by
  rw [proposal_cell_eq, if_pos (cell_score_nonneg _ _ _)]

/-- An instance of claim C6: a one-cell feature map (three anchors) at stride 8
and threshold 0 yields three detections. -/
theorem generate_proposals_emits_witness :
    ((8 : Int) = 8 ∨ (8 : Int) = 16 ∨ (8 : Int) = 32) ∧
      ∃ out, generate_proposals (fun _ => 1) 8 (fun _ => 0) 0 [] 8 8 (fun _ => 1) = some out ∧
        out.length = 3 := by
  obtain ⟨g, _, heq, _, hlen⟩ :=
    generate_proposals_emits (fun _ => 1) 8 (fun _ => 0) 0 [] 8 8 (fun _ => 1) (Or.inl rfl)
  refine ⟨Or.inl rfl, _, heq, ?_⟩
  rw [hlen _ heq]
  have hc : cells ((8 : Int).tdiv 8).toNat ((8 : Int).tdiv 8).toNat =
      [(0, 0, 0), (0, 0, 1), (0, 0, 2)] := by decide
  rw [hc]
  have hp : ∀ x y : ℚ,
      decide ((0 : ℚ) ≤ rnd32 (sigmoid (fun _ => 1) x * sigmoid (fun _ => 1) y)) = true :=
    fun x y => decide_eq_true
      (rnd32_nonneg (mul_nonneg (sigmoid_nonneg _ _) (sigmoid_nonneg _ _)))
  simp [List.countP_cons, hp]

/-- An instance of claim C7: the all-zero cell at threshold 0 is emitted with a
label in `[0, 80)`. -/
theorem proposal_cell_label_first_max_witness :
    (∀ k : Int, is_float ((fun _ : Int => (0 : ℚ)) k)) ∧
      ∃ L : Nat, L < 80 ∧
        (cell_object (fun _ => 1) 8 (fun _ => 0) (fun _ => 1) 1 (cell_offset 1 1 0 0 0)
          0 0 0).label = (L : Int) := by
  have hfloat : ∀ k : Int, is_float ((fun _ : Int => (0 : ℚ)) k) := by
    intro k
    constructor <;> norm_num [FLT_MAX]
  obtain ⟨L, h1, h2, _⟩ :=
    proposal_cell_label_first_max (fun _ => 1) 8 (fun _ => 0) 0 (fun _ => 1) (some 1) 1 1 []
      0 0 0 _ hfloat (proposal_cell_emits_at_zero _ _ _ _ _ _ _ _ _ _ _)
  exact ⟨hfloat, L, h1, h2⟩

/-- An instance of claim C8: with `exp` replaced by the constant 1 every sigmoid
is 1/2, so the all-zero cell `(0, 0, 0)` at stride 8 with unit anchors decodes
to a unit square centred at `(4, 4)`. -/
theorem proposal_cell_rect_witness :
    (((8 : Int) = 8 ∧ (0 : Int) = 0) ∨ ((8 : Int) = 16 ∧ (0 : Int) = 1) ∨
        ((8 : Int) = 32 ∧ (0 : Int) = 2)) ∧
      (cell_object (fun _ => 1) 8 (fun _ => 0) (fun _ => 1) 1 (cell_offset 1 1 0 0 0)
          0 0 0).rect.width = 1 ∧
      (cell_object (fun _ => 1) 8 (fun _ => 0) (fun _ => 1) 1 (cell_offset 1 1 0 0 0)
          0 0 0).rect.x + 1 / 2 = 4 := by
  have hg : ((8 : Int) = 8 ∧ (0 : Int) = 0) ∨ ((8 : Int) = 16 ∧ (0 : Int) = 1) ∨
      ((8 : Int) = 32 ∧ (0 : Int) = 2) := Or.inl ⟨rfl, rfl⟩
  obtain ⟨h1, _, h3, _⟩ :=
    proposal_cell_rect (fun _ => 1) 8 0 (fun _ => 0) 0 (fun _ => 1) 1 1 [] 0 0 0 _ hg
      (proposal_cell_emits_at_zero _ _ _ _ _ _ _ _ _ _ _)
  have hsig : ∀ x : ℚ, sigmoid (fun _ => 1) x = 1 / 2 := by
    intro x
    have e : sigmoid (fun _ => 1) x = sigmoid (fun _ => 1) 0 := rfl
    rw [e]
    decide!
  have hw : (cell_object (fun _ => 1) 8 (fun _ => 0) (fun _ => 1) 1 (cell_offset 1 1 0 0 0)
      0 0 0).rect.width = 1 := by
    rw [h1, hsig]
    norm_num
  refine ⟨hg, hw, ?_⟩
  rw [hw] at h3
  rw [h3, hsig]
  norm_num

/-- A saturated score: with objectness and class channels equal to 100 the
value `exp(-100)` is so small that `1.f + exp(-100)` is rounded to 1, each
sigmoid is exactly 1, and the three cells of a one-cell feature map are emitted
at the threshold 1. -/
theorem generate_proposals_saturated_score :
    sigmoid exp_approx 100 = 1 ∧
      (generate_proposals exp_approx 8 (fun _ => 100) 1 [] 8 8 (fun _ => 10)).map
        (fun out => out.map (fun o => o.prob)) = some [1, 1, 1] := by
  decide!

/-! ## Coordinate remapper -/

theorem fdiv_of_ne (a b : ℚ) (h : b ≠ 0) : fdiv a b = Flt.fin (a / b) := by
  simp [fdiv, h]

theorem flt_toInt_fin_nonneg (q : ℚ) (h : 0 ≤ q) :
    ∃ k : Int, Flt.toInt (Flt.fin q) = some k ∧ 0 ≤ k :=
  ⟨_, rfl, Int.tdiv_nonneg (Rat.num_nonneg.mpr h) (Int.ofNat_nonneg _)⟩

theorem flt_rounded_fin (f : ℚ → ℚ) (q : ℚ) : (Flt.fin q).rounded f = Flt.fin (f q) := rfl

theorem ddiv_of_ne (a b : Int) (h : (b : ℚ) ≠ 0) : ddiv a b = Flt.fin (rnd64 ((a : ℚ) / b)) := by
  unfold ddiv
  rw [fdiv_of_ne _ _ h, flt_rounded_fin]

theorem scale_mul_fin (s : ℚ) (n : Int) :
    scale_mul (Flt.fin s) n = Flt.fin (rnd32 (s * rnd32 n)) := rfl

theorem rnd64_nonneg {q : ℚ} (h : 0 ≤ q) : 0 ≤ rnd64 q := rnd_nonneg 53 (-1022) h

theorem resize_dims_pos {lr lc sr sc rc rr : Int} (hlr : 0 < lr) (hlc : 0 < lc)
    (hsr : 0 < sr) (hsc : 0 < sc) (hdims : resize_dims lr lc sr sc = some (rc, rr)) :
    0 ≤ rc ∧ 0 ≤ rr ∧
      ∃ s : ℚ,
        (if Flt.lt (ddiv lr sr) (ddiv lc sc) then (ddiv lr sr).rounded rnd32
          else (ddiv lc sc).rounded rnd32) = Flt.fin s ∧
        Flt.toInt (scale_mul (Flt.fin s) sc) = some rc ∧
        Flt.toInt (scale_mul (Flt.fin s) sr) = some rr := by
  have hsr' : ((sr : Int) : ℚ) ≠ 0 := by exact_mod_cast (ne_of_gt hsr)
  have hsc' : ((sc : Int) : ℚ) ≠ 0 := by exact_mod_cast (ne_of_gt hsc)
  have hsrq : (0 : ℚ) < sr := by exact_mod_cast hsr
  have hscq : (0 : ℚ) < sc := by exact_mod_cast hsc
  have hlrq : (0 : ℚ) < lr := by exact_mod_cast hlr
  have hlcq : (0 : ℚ) < lc := by exact_mod_cast hlc
  obtain ⟨s, hs, hs0⟩ : ∃ s : ℚ,
      (if Flt.lt (ddiv lr sr) (ddiv lc sc) then (ddiv lr sr).rounded rnd32
        else (ddiv lc sc).rounded rnd32) = Flt.fin s ∧ 0 ≤ s := by
    rw [ddiv_of_ne _ _ hsr', ddiv_of_ne _ _ hsc']
    by_cases h : Flt.lt (Flt.fin (rnd64 ((lr : ℚ) / sr))) (Flt.fin (rnd64 ((lc : ℚ) / sc))) = true
    · exact ⟨_, by rw [if_pos h, flt_rounded_fin],
        rnd32_nonneg (rnd64_nonneg (le_of_lt (div_pos hlrq hsrq)))⟩
    · exact ⟨_, by rw [if_neg h, flt_rounded_fin],
        rnd32_nonneg (rnd64_nonneg (le_of_lt (div_pos hlcq hscq)))⟩
  unfold resize_dims at hdims
  simp only [hs, scale_mul_fin] at hdims
  obtain ⟨k1, e1, n1⟩ := flt_toInt_fin_nonneg (rnd32 (s * rnd32 sc))
    (rnd32_nonneg (mul_nonneg hs0 (rnd32_nonneg (le_of_lt hscq))))
  obtain ⟨k2, e2, n2⟩ := flt_toInt_fin_nonneg (rnd32 (s * rnd32 sr))
    (rnd32_nonneg (mul_nonneg hs0 (rnd32_nonneg (le_of_lt hsrq))))
  rw [e1, e2] at hdims
  simp only [Option.some.injEq, Prod.mk.injEq] at hdims
  obtain ⟨d1, d2⟩ := hdims
  subst d1
  subst d2
  exact ⟨n1, n2, s, hs, by rw [scale_mul_fin]; exact e1, by rw [scale_mul_fin]; exact e2⟩

/-- The scale of a 26240x41 source image in a 640x640 letterbox is 1/41 rounded
to single precision, whose product with 41 is below 1: `resize_cols` is 0
although the exact product is 1. -/
theorem resize_dims_rounds_scale : resize_dims 640 640 26240 41 = some (0, 640) := by
  decide!

theorem reverse_letterbox_relabel (r : Rect_ ℚ) (label : Int) (prob : ℚ)
    (lr lc sr sc : Int) :
    reverse_letterbox [⟨r, label, prob⟩] lr lc sr sc =
      (reverse_letterbox [⟨r, 0, 0⟩] lr lc sr sc).map
        (fun objs => objs.map (fun o => ⟨o.rect, label, prob⟩)) := by
  unfold reverse_letterbox
  simp only
  generalize Flt.toInt (scale_mul (if Flt.lt (ddiv lr sr) (ddiv lc sc) then
    (ddiv lr sr).rounded rnd32 else (ddiv lc sc).rounded rnd32) sc) = a
  generalize Flt.toInt (scale_mul (if Flt.lt (ddiv lr sr) (ddiv lc sc) then
    (ddiv lr sr).rounded rnd32 else (ddiv lc sc).rounded rnd32) sr) = b
  cases a <;> cases b <;> rfl

/-- Claim C10 (amended).  With `letterbox_rows = letterbox_cols = 640`,
`src_rows = 480`, `src_cols = 640`, `reverse_letterbox` maps the letterbox-space
rectangle `(0, 80, 640, 480)` to `(0, 0, 639, 479)`: both corners are clamped to
`[0, src_cols - 1] x [0, src_rows - 1]`. -/
theorem reverse_letterbox_full_canvas (label : Int) (prob : ℚ) :
    reverse_letterbox [⟨⟨0, 80, 640, 480⟩, label, prob⟩] 640 640 480 640 =
      some [⟨⟨Flt.fin 0, Flt.fin 0, Flt.fin 639, Flt.fin 479⟩, label, prob⟩] := by
  have h : reverse_letterbox [⟨⟨0, 80, 640, 480⟩, 0, 0⟩] 640 640 480 640 =
      some [⟨⟨Flt.fin 0, Flt.fin 0, Flt.fin 639, Flt.fin 479⟩, 0, 0⟩] := by decide!
  rw [reverse_letterbox_relabel, h]
  rfl

/-- Claim C10 as stated fails: the rectangle `(0, 80, 640, 480)` is not mapped
to `(0, 0, 640, 480)`. -/
theorem reverse_letterbox_full_canvas_counterexample :
    reverse_letterbox [⟨⟨0, 80, 640, 480⟩, 0, 1⟩] 640 640 480 640 ≠
      some [⟨⟨Flt.fin 0, Flt.fin 0, Flt.fin 640, Flt.fin 480⟩, 0, 1⟩] := by
  decide!

/-! ## The two call shapes of the remapper -/

theorem mapOpt_of_map_eq {α β : Type} (s : List α) (f : α → Option β) :
    ∀ (picked : List Int) (kept : List α), picked.map (getI? s) = kept.map some →
      mapOpt picked (fun k => match getI? s k with
        | none => none
        | some p => f p) = mapOpt kept f := by
  intro picked
  induction picked with
  | nil =>
    intro kept h
    cases kept with
    | nil => rfl
    | cons a t => simp at h
  | cons k rest ih =>
    intro kept h
    cases kept with
    | nil => simp at h
    | cons a t =>
      simp only [List.map_cons, List.cons.injEq] at h
      obtain ⟨h1, h2⟩ := h
      simp only [mapOpt, h1, ih t h2]

theorem kept_of_picked (s : List (Object ℚ)) (picked : List Int)
    (hin : ∀ i ∈ picked, 0 ≤ i ∧ i < s.length) :
    picked.map (getI? s) = (picked.filterMap (getI? s)).map some :=
  map_eq_map_some_filterMap _ _ (fun x hx => getI?_of_bounds s x (hin x hx).1 (hin x hx).2)

theorem get_out_bbox_kept (proposals : List (Object ℚ)) (nt : ℚ) (lr lc sr sc : Int) :
    ∃ (s : List (Object ℚ)) (picked : List Int) (kept : List (Object ℚ)),
      qsort_descent_inplace proposals = some s ∧
      QPost proposals s 0 ((proposals.length : Int) - 1) ∧
      nms_sorted_bboxes s [] nt = some picked ∧
      picked.map (getI? s) = kept.map some ∧
      kept.Sublist s ∧
      get_out_bbox proposals nt lr lc sr sc = reverse_letterbox kept lr lc sr sc := by
  obtain ⟨s, hq, post⟩ := qsort_descent_inplace_spec proposals
  obtain ⟨picked, hn, hsub, _⟩ := nms_sorted_bboxes_spec s [] nt
  have hin : ∀ i ∈ picked, 0 ≤ i ∧ i < s.length :=
    fun i hi => (mem_range_cast _ i).mp (hsub.subset hi)
  have hkept := kept_of_picked s picked hin
  have hsl : (picked.filterMap (getI? s)).Sublist s := by
    have := hsub.filterMap (getI? s)
    rwa [filterMap_getI?_range] at this
  refine ⟨s, picked, picked.filterMap (getI? s), hq, post, hn, hkept, hsl, ?_⟩
  unfold get_out_bbox reverse_letterbox
  simp only [hq, hn]
  rw [← mapOpt_of_map_eq s _ picked _ hkept]
  congr 1
  funext k
  cases getI? s k <;> rfl

/-- Claim C11.  The two call shapes apply the same mapping: the output of
`get_out_bbox` is the output of `reverse_letterbox`, for the same dimensions,
on the list `[s[picked[0]], s[picked[1]], ...]`, where `s` is the proposals list
after `qsort_descent_inplace` and `picked` the result of
`nms_sorted_bboxes(s, nt)`. -/
theorem get_out_bbox_eq_reverse_letterbox (proposals : List (Object ℚ)) (nt : ℚ)
    (lr lc sr sc : Int) :
    ∃ (s : List (Object ℚ)) (picked : List Int) (kept : List (Object ℚ)),
      qsort_descent_inplace proposals = some s ∧
      nms_sorted_bboxes s [] nt = some picked ∧
      picked.map (getI? s) = kept.map some ∧
      get_out_bbox proposals nt lr lc sr sc = reverse_letterbox kept lr lc sr sc := by
  obtain ⟨s, picked, kept, h1, _, h2, h3, _, h4⟩ := get_out_bbox_kept proposals nt lr lc sr sc
  exact ⟨s, picked, kept, h1, h2, h3, h4⟩
/-! ## Intersection over union -/

/-- The IoU of two boxes of side `2^100`, and of two boxes of side `2^-100`, is
`NaN`: the single-precision areas overflow to `+inf`, respectively underflow to
zero, although the exact union is neither infinite nor zero. -/
theorem iou_overflow_underflow :
    iou ⟨⟨0, 0, 2 ^ 100, 2 ^ 100⟩, 0, 1⟩ ⟨⟨0, 0, 2 ^ 100, 2 ^ 100⟩, 0, 1⟩ = Flt.nan ∧
      iou ⟨⟨0, 0, 1 / 2 ^ 100, 1 / 2 ^ 100⟩, 0, 1⟩ ⟨⟨0, 0, 1 / 2 ^ 100, 1 / 2 ^ 100⟩, 0, 1⟩ =
        Flt.nan := by
  decide!

/-- A box narrower than the spacing of the single-precision numbers at its
position: `x = 1` and `width = 0.75 * 2^-23`.  The corner `x + width` is rounded
to `1 + 2^-23`, so the overlap of the box with itself is computed with the width
`2^-23`, more than the width of the box: the computed intersection area exceeds
the computed area, and the IoU of the box with itself is 2. -/
theorem iou_thin_box :
    intersection_area ⟨⟨1, 0, 3 / 2 ^ 25, 1⟩, 0, 1⟩ ⟨⟨1, 0, 3 / 2 ^ 25, 1⟩, 0, 1⟩ =
        Flt.fin (1 / 2 ^ 23) ∧
      (⟨1, 0, 3 / 2 ^ 25, 1⟩ : Rect_ ℚ).val.area = Flt.fin (3 / 2 ^ 25) ∧
      iou ⟨⟨1, 0, 3 / 2 ^ 25, 1⟩, 0, 1⟩ ⟨⟨1, 0, 3 / 2 ^ 25, 1⟩, 0, 1⟩ = Flt.fin 2 := by
  decide!

theorem class_scan_label_range (feat : Int → ℚ) (offset : Int) :
    0 ≤ (class_scan feat offset).1 ∧ (class_scan feat offset).1 < 80 := by
  obtain ⟨_, h2⟩ := class_scan_inv feat offset (-FLT_MAX) 80
  unfold class_scan
  simp only
  rcases h2 with h | ⟨L, hL, e, _⟩
  · rw [h]
    exact ⟨le_refl _, by norm_num⟩
  · rw [e]
    simp only
    omega

theorem cell_score_le_one (expf : ℚ → NNRat) (feat : Int → ℚ) (offset : Int) :
    cell_score expf feat offset ≤ 1 := by
  unfold cell_score
  simp only
  apply rnd32_le_one (mul_nonneg (sigmoid_nonneg _ _) (sigmoid_nonneg _ _))
  calc sigmoid expf (feat (offset + 4)) * sigmoid expf (class_scan feat offset).2
      ≤ 1 * 1 :=
        mul_le_mul (sigmoid_le_one _ _) (sigmoid_le_one _ _) (sigmoid_nonneg _ _)
          zero_le_one
    _ = 1 := one_mul 1

theorem cell_score_le_objectness (expf : ℚ → NNRat) (feat : Int → ℚ) (offset : Int) :
    cell_score expf feat offset ≤ sigmoid expf (feat (offset + 4)) := by
  unfold cell_score
  simp only
  have h := rnd32_mono (mul_nonneg (sigmoid_nonneg expf (feat (offset + 4)))
      (sigmoid_nonneg expf (class_scan feat offset).2))
    (mul_le_of_le_one_right (sigmoid_nonneg expf (feat (offset + 4)))
      (sigmoid_le_one expf (class_scan feat offset).2))
  rwa [sigmoid_rounded] at h

theorem mem_cells (feat_h feat_w : Nat) (c : Nat × Nat × Nat) :
    c ∈ cells feat_h feat_w ↔ c.1 < feat_h ∧ c.2.1 < feat_w ∧ c.2.2 < 3 := by
  obtain ⟨h, w, a⟩ := c
  unfold cells
  simp only [List.mem_flatMap, List.mem_map, List.mem_range, Prod.mk.injEq]
  constructor
  · rintro ⟨h1, hh, w1, hw, a1, ha, e1, e2, e3⟩
    subst e1 e2 e3
    exact ⟨hh, hw, ha⟩
  · rintro ⟨hh, hw, ha⟩
    exact ⟨h, hh, w, hw, a, ha, rfl, rfl, rfl⟩

theorem stride_group (stride : Int) (hs : stride = 8 ∨ stride = 16 ∨ stride = 32) :
    ∃ g : Int, (stride = 8 ∧ g = 0) ∨ (stride = 16 ∧ g = 1) ∨ (stride = 32 ∧ g = 2) := by
  rcases hs with h | h | h
  · exact ⟨0, Or.inl ⟨h, rfl⟩⟩
  · exact ⟨1, Or.inr (Or.inl ⟨h, rfl⟩)⟩
  · exact ⟨2, Or.inr (Or.inr ⟨h, rfl⟩)⟩

/-- Claim C14.  Every detection emitted by `generate_proposals`, for a stride
in {8, 16, 32}, has its label in `[0, 80)` and its score in `[0, 1]`. -/
theorem generate_proposals_label_score_range (expf : ℚ → NNRat) (stride : Int)
    (feat : Int → ℚ) (t : ℚ) (objects : List (Object ℚ)) (lc lr : Int) (anchors : Int → ℚ)
    (hs : stride = 8 ∨ stride = 16 ∨ stride = 32) :
    ∃ outs, generate_proposals expf stride feat t objects lc lr anchors =
        some (objects ++ outs) ∧
      ∀ o ∈ outs, (0 ≤ o.label ∧ o.label < 80) ∧ (0 ≤ o.prob ∧ o.prob ≤ 1) := by
  obtain ⟨g, hg⟩ := stride_group stride hs
  refine ⟨_, generate_proposals_eq expf stride feat t objects lc lr anchors g hg, ?_⟩
  intro o ho
  obtain ⟨c, _, rfl⟩ := List.mem_map.mp ho
  rw [cell_object_label]
  refine ⟨class_scan_label_range _ _, ?_, ?_⟩
  · exact cell_score_nonneg expf feat _
  · exact cell_score_le_one expf feat _

/-- An instance of claim C14: a one-cell feature map at stride 8 and threshold
0. -/
theorem generate_proposals_label_score_range_witness :
    ∃ outs, generate_proposals exp_approx 8 (fun _ => 0) 0 [] 8 8 (fun _ => 1) =
        some ([] ++ outs) ∧
      ∀ o ∈ outs, (0 ≤ o.label ∧ o.label < 80) ∧ (0 ≤ o.prob ∧ o.prob ≤ 1) :=
  generate_proposals_label_score_range exp_approx 8 (fun _ => 0) 0 [] 8 8 (fun _ => 1)
    (Or.inl rfl)

/-! ## Buffers with negative objectness -/

theorem exp_approx_ge_one (y : ℚ) (h : 0 < y) : (1 : ℚ) ≤ (exp_approx y : ℚ) := by
  unfold exp_approx
  simp only [if_pos (le_of_lt h)]
  have h1 : (1 : NNRat) ≤ 1 + Rat.toNNRat |y| + Rat.toNNRat |y| ^ 2 / 2 +
      Rat.toNNRat |y| ^ 3 / 6 + Rat.toNNRat |y| ^ 4 / 24 + Rat.toNNRat |y| ^ 5 / 120 :=
    le_add_right (le_add_right (le_add_right (le_add_right le_self_add)))
  exact_mod_cast h1

theorem sigmoid_neg_le_half (expf : ℚ → NNRat) (hexp : ∀ y : ℚ, 0 < y → (1 : ℚ) ≤ (expf y : ℚ))
    (x : ℚ) (hx : x < 0) : sigmoid expf x ≤ 1 / 2 := by
  unfold sigmoid
  simp only
  have h := hexp (-x) (by linarith)
  have h2 : (2 : ℚ) ≤ rnd32 (1 + (expf (-x) : ℚ)) := by
    have := rnd32_mono (by norm_num : (0 : ℚ) ≤ 2) (by linarith : (2 : ℚ) ≤ 1 + (expf (-x) : ℚ))
    have e : rnd32 2 = 2 := by decide!
    rwa [e] at this
  split
  · norm_num
  · have hq : 1 / rnd32 (1 + (expf (-x) : ℚ)) ≤ 1 / 2 :=
      one_div_le_one_div_of_le (by norm_num) h2
    have := rnd32_mono (by positivity) hq
    have e : rnd32 (1 / 2) = 1 / 2 := by decide!
    rwa [e] at this

theorem get_out_bbox_nil (nt : ℚ) (lr lc sr sc : Int) :
    get_out_bbox [] nt lr lc sr sc = some [] := by
  unfold get_out_bbox
  rfl

theorem generate_proposals_low_objectness (expf : ℚ → NNRat) (stride : Int) (feat : Int → ℚ)
    (t : ℚ) (lc lr : Int) (anchors : Int → ℚ) (hs : stride = 8 ∨ stride = 16 ∨ stride = 32)
    (hlow : ∀ h w a : Nat, h < (lr.tdiv stride).toNat → w < (lc.tdiv stride).toNat → a < 3 →
      sigmoid expf (feat (cell_offset (lc.tdiv stride) (lr.tdiv stride) h w a + 4)) < t)
    (objs : List (Object ℚ)) :
    generate_proposals expf stride feat t objs lc lr anchors = some objs := by
  obtain ⟨g, hg⟩ := stride_group stride hs
  have hnone : ((cells (lr.tdiv stride).toNat (lc.tdiv stride).toNat).filter
      (fun c => decide (t ≤ cell_score expf feat
        (cell_offset (lc.tdiv stride) (lr.tdiv stride) c.1 c.2.1 c.2.2)))) = [] := by
    rw [List.filter_eq_nil_iff]
    intro c hc
    obtain ⟨h1, h2, h3⟩ := (mem_cells _ _ c).mp hc
    simp only [decide_eq_true_eq, not_le]
    exact lt_of_le_of_lt (cell_score_le_objectness expf feat _) (hlow c.1 c.2.1 c.2.2 h1 h2 h3)
  rw [generate_proposals_eq expf stride feat t objs lc lr anchors g hg, hnone]
  simp

/-- Claim C15 (amended).  For a stride in {8, 16, 32}, a threshold `t` and a
feature buffer in which `sigmoid(objectness)` of every cell is below `t`,
`generate_proposals` emits no detection, so the final list produced by
`get_out_bbox` is empty. -/
theorem generate_proposals_negative_objectness (expf : ℚ → NNRat) (stride : Int)
    (feat : Int → ℚ) (t : ℚ) (objects : List (Object ℚ)) (lc lr : Int) (anchors : Int → ℚ)
    (hs : stride = 8 ∨ stride = 16 ∨ stride = 32)
    (hlow : ∀ h w a : Nat, h < (lr.tdiv stride).toNat → w < (lc.tdiv stride).toNat → a < 3 →
      sigmoid expf (feat (cell_offset (lc.tdiv stride) (lr.tdiv stride) h w a + 4)) < t) :
    generate_proposals expf stride feat t objects lc lr anchors = some objects ∧
      ∀ (nt : ℚ) (src_rows src_cols : Int) (out : List (Object ℚ)),
        generate_proposals expf stride feat t [] lc lr anchors = some out →
        get_out_bbox out nt lr lc src_rows src_cols = some [] := by
  refine ⟨generate_proposals_low_objectness expf stride feat t lc lr anchors hs hlow objects, ?_⟩
  intro nt src_rows src_cols out hout
  rw [generate_proposals_low_objectness expf stride feat t lc lr anchors hs hlow []] at hout
  cases hout
  exact get_out_bbox_nil nt lr lc src_rows src_cols

/-- A buffer in which the objectness value of every cell is negative emits no
detection at any threshold above 1/2, the function `exp` being at least 1 on
positive arguments: the sigmoid of a negative value is at most 1/2. -/
theorem generate_proposals_negative_above_half (expf : ℚ → NNRat)
    (hexp : ∀ y : ℚ, 0 < y → (1 : ℚ) ≤ (expf y : ℚ)) (stride : Int) (feat : Int → ℚ) (t : ℚ)
    (objects : List (Object ℚ)) (lc lr : Int) (anchors : Int → ℚ)
    (hs : stride = 8 ∨ stride = 16 ∨ stride = 32)
    (hneg : ∀ h w a : Nat, h < (lr.tdiv stride).toNat → w < (lc.tdiv stride).toNat → a < 3 →
      feat (cell_offset (lc.tdiv stride) (lr.tdiv stride) h w a + 4) < 0)
    (ht : 1 / 2 < t) :
    generate_proposals expf stride feat t objects lc lr anchors = some objects :=
  generate_proposals_low_objectness expf stride feat t lc lr anchors hs
    (fun h w a hh hw ha =>
      lt_of_le_of_lt (sigmoid_neg_le_half expf hexp _ (hneg h w a hh hw ha)) ht) objects

/-- An instance of the amended claim C15: a one-cell feature map (three anchors)
with objectness -1 everywhere, whose sigmoid is below the threshold 3/4. -/
theorem generate_proposals_negative_objectness_witness :
    generate_proposals exp_approx 8 (fun k => if k % 85 = 4 then -1 else 0) (3 / 4) [] 8 8
      (fun _ => 10) = some [] :=
  (generate_proposals_negative_objectness exp_approx 8
    (fun k => if k % 85 = 4 then -1 else 0) (3 / 4) [] 8 8 (fun _ => 10) (Or.inl rfl)
    (by
      intro h w a hh hw ha
      have e1 : ((8 : Int).tdiv 8).toNat = 1 := by decide
      rw [e1] at hh hw
      have e2 : (8 : Int).tdiv 8 = 1 := by decide
      rw [e2]
      have h0 : h = 0 := by omega
      have w0 : w = 0 := by omega
      subst h0 w0
      have hm : (cell_offset 1 1 ((0 : Nat) : Int) ((0 : Nat) : Int) (a : Int) + 4) % 85 = 4 := by
        have ha3 : a = 0 ∨ a = 1 ∨ a = 2 := by omega
        rcases ha3 with rfl | rfl | rfl <;> decide
      simp only [hm, if_true]
      decide!)).1

/-- Claim C15 as stated fails: with objectness -1 in every cell, class channels 0
and threshold 1/10 the score of each cell is `sigmoid(-1) * sigmoid(0)`, about
0.13 with the rational stand-in for `exp`, which is not below the
threshold: three detections are emitted and `get_out_bbox` returns one of
them. -/
theorem generate_proposals_negative_objectness_counterexample :
    (0 : ℚ) < 1 / 10 ∧
      (∀ a ∈ [(0 : Int), 1, 2],
        (fun k : Int => if k % 85 = 4 then (-1 : ℚ) else 0) (cell_offset 1 1 0 0 a + 4) < 0) ∧
      (generate_proposals exp_approx 8 (fun k => if k % 85 = 4 then -1 else 0) (1 / 10) [] 8 8
        (fun _ => 10)).map List.length = some 3 ∧
      ((generate_proposals exp_approx 8 (fun k => if k % 85 = 4 then -1 else 0) (1 / 10) [] 8 8
        (fun _ => 10)).bind fun out =>
          (get_out_bbox out (1 / 2) 8 8 8 8).map List.length) = some 1 := by
  refine ⟨by norm_num, by decide!, by decide!, by decide!⟩

/-! ## Empty input -/

/-- Claim C16.  Every stage accepts the empty sequence: on an empty detection
list `qsort_descent_inplace` leaves it empty, `nms_sorted_bboxes` returns an
empty `picked` list, and `reverse_letterbox` and `get_out_bbox` return an empty
output list, for every threshold and every image size. -/
theorem empty_input_is_accepted :
    qsort_descent_inplace [] = some [] ∧
      (∀ (picked : List Int) (nt : ℚ), nms_sorted_bboxes [] picked nt = some []) ∧
      (∀ lr lc sr sc : Int, reverse_letterbox [] lr lc sr sc = some []) ∧
      (∀ (nt : ℚ) (lr lc sr sc : Int), get_out_bbox [] nt lr lc sr sc = some []) :=
  ⟨rfl, fun _ _ => rfl, fun _ _ _ _ => rfl, fun nt lr lc sr sc => get_out_bbox_nil nt lr lc sr sc⟩

/-! ## Grid and stride generator -/

theorem foldl_push {α β : Type} (g : α → List β) :
    ∀ (l : List α) (init : List β),
      l.foldl (fun acc x => acc ++ g x) init = init ++ l.flatMap g := by
  intro l
  induction l with
  | nil =>
    intro init
    simp
  | cons a t ih =>
    intro init
    rw [List.foldl_cons, ih]
    simp

theorem foldlM_push_mem {α β : Type} (f : List β → α → Option (List β)) (g : α → List β) :
    ∀ (l : List α) (init : List β), (∀ x ∈ l, ∀ objs, f objs x = some (objs ++ g x)) →
      l.foldlM f init = some (init ++ l.flatMap g) := by
  intro l
  induction l with
  | nil =>
    intro init _
    simp
  | cons a t ih =>
    intro init hf
    rw [List.foldlM_cons, hf a (List.mem_cons_self _ _)]
    simp only [Option.bind_eq_bind, Option.some_bind]
    rw [ih _ (fun x hx => hf x (List.mem_cons_of_mem _ hx))]
    simp

theorem length_flatMap_map_range {β : Type} (n m : Nat) (f : Nat → Nat → β) :
    ((List.range n).flatMap fun g1 => (List.range m).map fun g0 => f g1 g0).length = n * m := by
  induction n with
  | zero => simp
  | succ n ih =>
    rw [List.range_succ, List.flatMap_append, List.length_append, ih]
    simp [Nat.succ_mul]

theorem toNat_mul_of_nonneg (a b : Int) (ha : 0 ≤ a) (hb : 0 ≤ b) :
    (a * b).toNat = a.toNat * b.toNat := by
  have h : ((a * b).toNat : Int) = ((a.toNat * b.toNat : Nat) : Int) := by
    rw [Int.toNat_of_nonneg (mul_nonneg ha hb)]
    push_cast
    rw [Int.toNat_of_nonneg ha, Int.toNat_of_nonneg hb]
  exact_mod_cast h

theorem mem_grid_block (tw th s : Int) (g : GridAndStride) :
    g ∈ grid_block tw th s ↔
      0 ≤ g.grid0 ∧ g.grid0 < tw.tdiv s ∧ 0 ≤ g.grid1 ∧ g.grid1 < th.tdiv s ∧ g.stride = s := by
  unfold grid_block
  simp only [List.mem_flatMap, List.mem_map, List.mem_range]
  constructor
  · rintro ⟨g1, h1, g0, h0, rfl⟩
    refine ⟨?_, ?_, ?_, ?_, rfl⟩ <;> simp only <;> omega
  · rintro ⟨a0, a1, b0, b1, e⟩
    refine ⟨g.grid1.toNat, by omega, g.grid0.toNat, by omega, ?_⟩
    rcases g with ⟨x, y, z⟩
    simp only at a0 a1 b0 b1 e
    simp only [GridAndStride.mk.injEq]
    omega

theorem nodup_grid_block (tw th s : Int) : (grid_block tw th s).Nodup := by
  unfold grid_block
  rw [List.nodup_flatMap]
  constructor
  · intro g1 _
    refine (List.nodup_range _).map ?_
    intro a b h
    simp only [GridAndStride.mk.injEq, and_true] at h
    exact_mod_cast h
  · refine (List.nodup_range _).imp ?_
    intro a b hab
    intro x hxa hxb
    simp only [List.mem_map, List.mem_range] at hxa hxb
    obtain ⟨_, _, rfl⟩ := hxa
    obtain ⟨_, _, h⟩ := hxb
    simp only [GridAndStride.mk.injEq, and_true] at h
    apply hab
    have := h.2
    exact_mod_cast this.symm

/-- Claim C17.  For `target_w, target_h >= 0` and positive strides,
`generate_grids_and_stride` returns the previous content of `grid_strides`
followed, for each stride `s` in list order, by the block of that stride: the
cells in row-major order (`grid1` outer, `grid0` inner), each tagged with `s`.
The block holds `(target_w / s) * (target_h / s)` cells, every pair
`(grid0, grid1)` with `0 <= grid0 < target_w / s` and
`0 <= grid1 < target_h / s` exactly once. -/
theorem generate_grids_and_stride_cells (tw th : Int) (strides : List Int)
    (gs : List GridAndStride) (htw : 0 ≤ tw) (hth : 0 ≤ th) (hpos : ∀ s ∈ strides, 0 < s) :
    generate_grids_and_stride tw th strides gs =
        some (gs ++ strides.flatMap (grid_block tw th)) ∧
      ∀ s ∈ strides,
        (grid_block tw th s).length = ((tw.tdiv s) * (th.tdiv s)).toNat ∧
        (grid_block tw th s).Nodup ∧
        ∀ g : GridAndStride, g ∈ grid_block tw th s ↔
          0 ≤ g.grid0 ∧ g.grid0 < tw.tdiv s ∧ 0 ≤ g.grid1 ∧ g.grid1 < th.tdiv s ∧
            g.stride = s := by
  constructor
  · unfold generate_grids_and_stride
    apply foldlM_push_mem
    intro s hs objs
    have hne : s ≠ 0 := ne_of_gt (hpos s hs)
    rw [if_neg hne]
    simp only
    congr 1
    have inner : ∀ (g1 : Nat) (acc : List GridAndStride),
        (List.range (tw.tdiv s).toNat).foldl
          (fun (acc : List GridAndStride) (g0 : Nat) =>
            acc ++ [{ grid0 := g0, grid1 := g1, stride := s }]) acc =
          acc ++ (List.range (tw.tdiv s).toNat).map
            (fun (g0 : Nat) => ({ grid0 := g0, grid1 := g1, stride := s } : GridAndStride)) := by
      intro g1 acc
      rw [foldl_push (fun (g0 : Nat) => [({ grid0 := g0, grid1 := g1, stride := s } :
        GridAndStride)])]
      congr 1
      induction (List.range (tw.tdiv s).toNat) with
      | nil => rfl
      | cons a t ih => simp [List.flatMap_cons, ih]
    simp only [inner]
    rw [foldl_push]
    rfl
  · intro s hs
    have hs0 := hpos s hs
    refine ⟨?_, nodup_grid_block tw th s, mem_grid_block tw th s⟩
    unfold grid_block
    rw [length_flatMap_map_range,
      toNat_mul_of_nonneg _ _ (Int.tdiv_nonneg htw (le_of_lt hs0))
        (Int.tdiv_nonneg hth (le_of_lt hs0))]
    exact Nat.mul_comm _ _

/-- An instance of claim C17: for 640x640 and strides 8, 16, 32 the result has
6400 + 1600 + 400 = 8400 cells. -/
theorem generate_grids_and_stride_cells_witness :
    ∃ out, generate_grids_and_stride 640 640 [8, 16, 32] [] = some out ∧ out.length = 8400 := by
  obtain ⟨h1, h2⟩ := generate_grids_and_stride_cells 640 640 [8, 16, 32] [] (by decide)
    (by decide) (by decide)
  refine ⟨_, h1, ?_⟩
  have a := (h2 8 (by decide)).1
  have b := (h2 16 (by decide)).1
  have c := (h2 32 (by decide)).1
  have ea : (((640 : Int).tdiv 8) * ((640 : Int).tdiv 8)).toNat = 6400 := by decide
  have eb : (((640 : Int).tdiv 16) * ((640 : Int).tdiv 16)).toNat = 1600 := by decide
  have ec : (((640 : Int).tdiv 32) * ((640 : Int).tdiv 32)).toNat = 400 := by decide
  rw [ea] at a
  rw [eb] at b
  rw [ec] at c
  simp only [List.nil_append, List.flatMap_cons, List.flatMap_nil, List.length_append,
    List.append_nil, a, b, c]

/-! ## Order, labels and scores of the final list -/

theorem mapOpt_map {α β : Type} (g : α → β) :
    ∀ l : List α, mapOpt l (fun x => some (g x)) = some (l.map g) := by
  intro l
  induction l with
  | nil => rfl
  | cons a t ih => simp [mapOpt, ih]

theorem qpost_pairwise {v out : List (Object ℚ)}
    (q : QPost v out 0 ((v.length : Int) - 1)) :
    out.Pairwise (fun a b => a.prob ≥ b.prob) := by
  rw [List.pairwise_iff_getElem]
  intro i j hi hj hij
  have hlen := q.len
  exact q.sorted (i : Int) (j : Int) out[i] out[j] (by omega) (by omega) (by omega)
    (by rw [getI?_natCast]; exact List.getElem?_eq_getElem hi)
    (by rw [getI?_natCast]; exact List.getElem?_eq_getElem hj)

theorem resize_dims_some (lr lc : Int) {sr sc : Int} (hsr : 0 < sr) (hsc : 0 < sc) :
    ∃ rc rr, resize_dims lr lc sr sc = some (rc, rr) := by
  have hsr1 : ((sr : Int) : ℚ) ≠ 0 := by exact_mod_cast (ne_of_gt hsr)
  have hsc1 : ((sc : Int) : ℚ) ≠ 0 := by exact_mod_cast (ne_of_gt hsc)
  unfold resize_dims
  rw [ddiv_of_ne _ _ hsr1, ddiv_of_ne _ _ hsc1]
  by_cases h : Flt.lt (Flt.fin (rnd64 ((lr : ℚ) / sr))) (Flt.fin (rnd64 ((lc : ℚ) / sc))) = true
  · simp only [if_pos h, flt_rounded_fin, scale_mul_fin, Flt.toInt]
    exact ⟨_, _, rfl⟩
  · simp only [if_neg h, flt_rounded_fin, scale_mul_fin, Flt.toInt]
    exact ⟨_, _, rfl⟩

/-- Claim C18.  For positive dimensions the detections returned by
`get_out_bbox` are in non-increasing score order, each one carries the label and
the score of a distinct input proposal (only the rectangle is rewritten), and
there are at most as many of them as input proposals. -/
theorem get_out_bbox_order_labels_scores (proposals : List (Object ℚ)) (nt : ℚ)
    (lr lc sr sc : Int) (hlr : 0 < lr) (hlc : 0 < lc) (hsr : 0 < sr) (hsc : 0 < sc) :
    ∃ out, get_out_bbox proposals nt lr lc sr sc = some out ∧
      out.Pairwise (fun a b => a.prob ≥ b.prob) ∧
      (∃ kept : List (Object ℚ), kept.Subperm proposals ∧
        out.map (fun o => (o.label, o.prob)) = kept.map (fun p => (p.label, p.prob))) ∧
      out.length ≤ proposals.length := by
  obtain ⟨s, picked, kept, _, post, _, _, hsl, heq⟩ :=
    get_out_bbox_kept proposals nt lr lc sr sc
  obtain ⟨rc, rr, hdims⟩ := resize_dims_some lr lc hsr hsc
  obtain ⟨_, _, q, hs, e1, e2⟩ := resize_dims_pos hlr hlc hsr hsc hdims
  have hsp : kept.Subperm proposals := hsl.subperm.trans post.perm.subperm
  have hkp : kept.Pairwise (fun a b => a.prob ≥ b.prob) := (qpost_pairwise post).sublist hsl
  rw [heq]
  unfold reverse_letterbox
  simp only [hs, e1, e2, Option.map_some']
  rw [mapOpt_map]
  refine ⟨_, rfl, ?_, ⟨kept, hsp, ?_⟩, ?_⟩
  · exact hkp.map _ (fun a b h => h)
  · rw [List.map_map]
    rfl
  · rw [List.length_map]
    exact hsp.length_le

/-- An instance of claim C18: two overlapping proposals given in ascending
score order. -/
theorem get_out_bbox_order_labels_scores_witness :
    ∃ out, get_out_bbox [⟨⟨0, 80, 64, 48⟩, 3, 1 / 2⟩, ⟨⟨0, 80, 64, 48⟩, 7, 3 / 4⟩] (1 / 2)
        640 640 480 640 = some out ∧
      out.Pairwise (fun a b => a.prob ≥ b.prob) ∧ out.length ≤ 2 := by
  obtain ⟨out, h1, h2, _, h3⟩ :=
    get_out_bbox_order_labels_scores
      [⟨⟨0, 80, 64, 48⟩, 3, 1 / 2⟩, ⟨⟨0, 80, 64, 48⟩, 7, 3 / 4⟩] (1 / 2) 640 640 480 640
      (by decide) (by decide) (by decide) (by decide)
  exact ⟨out, h1, h2, h3⟩

/-! ## Buffer indices read by the decoder -/

theorem wrap32_of_range (x : Int) (h0 : -2147483648 ≤ x) (h1 : x ≤ 2147483647) :
    wrap32 x = x := by
  unfold wrap32
  norm_num
  omega

theorem cell_offset_eq (feat_w feat_h h w a : Int) (h0 : 0 ≤ h) (h1 : h < feat_h)
    (w0 : 0 ≤ w) (w1 : w < feat_w) (a0 : 0 ≤ a) (a1 : a < 3)
    (hsize : 3 * feat_h * feat_w * 85 ≤ 2147483647) :
    cell_offset feat_w feat_h h w a = (a * (feat_h * feat_w) + h * feat_w + w) * 85 := by
  have hW : 1 ≤ feat_w := by omega
  have hHW : feat_w ≤ feat_h * feat_w := by nlinarith
  have ha : a * (feat_h * feat_w) ≤ 2 * (feat_h * feat_w) :=
    mul_le_mul_of_nonneg_right (by omega) (by nlinarith)
  have ha0 : 0 ≤ a * (feat_h * feat_w) := mul_nonneg a0 (by nlinarith)
  have hh : h * feat_w ≤ (feat_h - 1) * feat_w := mul_le_mul_of_nonneg_right (by omega) (by omega)
  have hh0 : 0 ≤ h * feat_w := mul_nonneg h0 (by omega)
  have hh' : (feat_h - 1) * feat_w = feat_h * feat_w - feat_w := by ring
  have e6 : 3 * feat_h * feat_w * 85 = 255 * (feat_h * feat_w) := by ring
  rw [e6] at hsize
  have e1 : wrap32 (80 + 5) = 85 := by decide
  have e2 : wrap32 (feat_w * 85) = feat_w * 85 :=
    wrap32_of_range _ (by linarith) (by linarith)
  have e3 : wrap32 (feat_h * (feat_w * 85)) = 85 * (feat_h * feat_w) := by
    have e : feat_h * (feat_w * 85) = 85 * (feat_h * feat_w) := by ring
    rw [e]
    exact wrap32_of_range _ (by linarith) (by linarith)
  have e4 : wrap32 (a * (85 * (feat_h * feat_w))) = 85 * (a * (feat_h * feat_w)) := by
    have e : a * (85 * (feat_h * feat_w)) = 85 * (a * (feat_h * feat_w)) := by ring
    rw [e]
    exact wrap32_of_range _ (by linarith) (by linarith)
  have e5 : wrap32 (h * (feat_w * 85)) = 85 * (h * feat_w) := by
    have e : h * (feat_w * 85) = 85 * (h * feat_w) := by ring
    rw [e]
    exact wrap32_of_range _ (by linarith) (by linarith)
  have e7 : wrap32 (85 * (a * (feat_h * feat_w)) + 85 * (h * feat_w)) =
      85 * (a * (feat_h * feat_w)) + 85 * (h * feat_w) :=
    wrap32_of_range _ (by linarith) (by linarith)
  have e8 : wrap32 (w * 85) = w * 85 := wrap32_of_range _ (by linarith) (by linarith)
  have e9 : wrap32 (85 * (a * (feat_h * feat_w)) + 85 * (h * feat_w) + w * 85) =
      85 * (a * (feat_h * feat_w)) + 85 * (h * feat_w) + w * 85 :=
    wrap32_of_range _ (by linarith) (by linarith)
  unfold cell_offset
  simp only [e1, e2, e3, e4, e5, e7, e8, e9]
  ring

theorem cell_index_bounds (feat_w feat_h h w a c : Int) (h0 : 0 ≤ h) (h1 : h < feat_h)
    (w0 : 0 ≤ w) (w1 : w < feat_w) (a0 : 0 ≤ a) (a1 : a < 3) (c0 : 0 ≤ c) (c1 : c ≤ 84)
    (hsize : 3 * feat_h * feat_w * 85 ≤ 2147483647) :
    0 ≤ cell_offset feat_w feat_h h w a + c ∧
      cell_offset feat_w feat_h h w a + c < 3 * feat_h * feat_w * 85 := by
  rw [cell_offset_eq _ _ _ _ _ h0 h1 w0 w1 a0 a1 hsize]
  have hW : 0 ≤ feat_w := by omega
  have hHW : 0 ≤ feat_h * feat_w := mul_nonneg (by omega) hW
  have e1 : 0 ≤ a * (feat_h * feat_w) := mul_nonneg a0 hHW
  have e2 : 0 ≤ h * feat_w := mul_nonneg h0 hW
  have e3 : a * (feat_h * feat_w) ≤ 2 * (feat_h * feat_w) :=
    mul_le_mul_of_nonneg_right (by omega) hHW
  have e4 : h * feat_w ≤ (feat_h - 1) * feat_w := mul_le_mul_of_nonneg_right (by omega) hW
  have e5 : (feat_h - 1) * feat_w = feat_h * feat_w - feat_w := by ring
  have e6 : 3 * feat_h * feat_w * 85 = 255 * (feat_h * feat_w) := by ring
  rw [e6]
  constructor
  · nlinarith
  · nlinarith

theorem mixed_radix_unique (m x r x1 r1 : Int) (hr0 : 0 ≤ r) (hr : r < m) (hr10 : 0 ≤ r1)
    (hr1 : r1 < m) (h : x * m + r = x1 * m + r1) : x = x1 ∧ r = r1 := by
  have hm : m ≠ 0 := by omega
  have e1 : (x * m + r) / m = x := by
    rw [add_comm, Int.add_mul_ediv_right _ _ hm, Int.ediv_eq_zero_of_lt hr0 hr, zero_add]
  have e2 : (x1 * m + r1) / m = x1 := by
    rw [add_comm, Int.add_mul_ediv_right _ _ hm, Int.ediv_eq_zero_of_lt hr10 hr1, zero_add]
  have hx : x = x1 := by rw [← e1, ← e2, h]
  subst hx
  exact ⟨rfl, by linarith⟩

theorem cell_index_injective (feat_w feat_h h w a c h2 w2 a2 c2 : Int)
    (h0 : 0 ≤ h) (h1 : h < feat_h) (w0 : 0 ≤ w) (w1 : w < feat_w) (a0 : 0 ≤ a) (a1 : a < 3)
    (c0 : 0 ≤ c) (c1 : c ≤ 84)
    (h20 : 0 ≤ h2) (h21 : h2 < feat_h) (w20 : 0 ≤ w2) (w21 : w2 < feat_w) (a20 : 0 ≤ a2)
    (a21 : a2 < 3) (c20 : 0 ≤ c2) (c21 : c2 ≤ 84)
    (hsize : 3 * feat_h * feat_w * 85 ≤ 2147483647)
    (e : cell_offset feat_w feat_h h w a + c = cell_offset feat_w feat_h h2 w2 a2 + c2) :
    h = h2 ∧ w = w2 ∧ a = a2 ∧ c = c2 := by
  rw [cell_offset_eq _ _ _ _ _ h0 h1 w0 w1 a0 a1 hsize,
    cell_offset_eq _ _ _ _ _ h20 h21 w20 w21 a20 a21 hsize] at e
  obtain ⟨e1, ec⟩ := mixed_radix_unique 85 _ c _ c2 c0 (by omega) c20 (by omega) e
  have e2 : (a * feat_h + h) * feat_w + w = (a2 * feat_h + h2) * feat_w + w2 := by
    have l1 : (a * feat_h + h) * feat_w + w = a * (feat_h * feat_w) + h * feat_w + w := by ring
    have l2 : (a2 * feat_h + h2) * feat_w + w2 = a2 * (feat_h * feat_w) + h2 * feat_w + w2 := by
      ring
    rw [l1, l2]
    exact e1
  obtain ⟨e3, ew⟩ := mixed_radix_unique feat_w _ w _ w2 w0 w1 w20 w21 e2
  obtain ⟨ea, eh⟩ := mixed_radix_unique feat_h a h a2 h2 h0 h1 h20 h21 e3
  exact ⟨eh, ew, ea, ec⟩

theorem foldl_congr_mem {α β : Type} (f g : β → α → β) :
    ∀ (l : List α) (init : β), (∀ acc, ∀ x ∈ l, f acc x = g acc x) →
      l.foldl f init = l.foldl g init := by
  intro l
  induction l with
  | nil =>
    intro init _
    rfl
  | cons a t ih =>
    intro init h
    rw [List.foldl_cons, List.foldl_cons, h init a (List.mem_cons_self _ _)]
    exact ih _ (fun acc x hx => h acc x (List.mem_cons_of_mem _ hx))

theorem class_scan_congr (feat feat2 : Int → ℚ) (offset : Int)
    (h : ∀ s : Nat, s < 80 → feat (offset + s + 5) = feat2 (offset + s + 5)) :
    class_scan feat offset = class_scan feat2 offset := by
  unfold class_scan
  apply foldl_congr_mem
  intro acc s hs
  simp only [h s (List.mem_range.mp hs)]

theorem cell_congr (expf : ℚ → NNRat) (stride : Int) (feat feat2 anchors anchors2 : Int → ℚ)
    (g offset h w a : Int)
    (hfeat : ∀ c : Int, 0 ≤ c → c ≤ 84 → feat (offset + c) = feat2 (offset + c))
    (hanch : ∀ k : Int, 0 ≤ k → k ≤ 1 →
      anchors ((g - 1) * 6 + a * 2 + k) = anchors2 ((g - 1) * 6 + a * 2 + k)) :
    cell_score expf feat offset = cell_score expf feat2 offset ∧
      cell_object expf stride feat anchors g offset h w a =
        cell_object expf stride feat2 anchors2 g offset h w a := by
  have hscan : class_scan feat offset = class_scan feat2 offset := by
    apply class_scan_congr
    intro s hs
    have := hfeat (s + 5) (by omega) (by omega)
    rw [← add_assoc] at this
    exact this
  have hscore : cell_score expf feat offset = cell_score expf feat2 offset := by
    unfold cell_score
    simp only [hscan, hfeat 4 (by norm_num) (by norm_num)]
  refine ⟨hscore, ?_⟩
  unfold cell_object
  simp only [hscan, hscore, hfeat 0 (by norm_num) (by norm_num),
    hfeat 1 (by norm_num) (by norm_num), hfeat 2 (by norm_num) (by norm_num),
    hfeat 3 (by norm_num) (by norm_num), hanch 0 (by norm_num) (by norm_num),
    hanch 1 (by norm_num) (by norm_num)]

/-- Claim C19 (amended).  With `feat_w = letterbox_cols / stride`,
`feat_h = letterbox_rows / stride`, a stride in {8, 16, 32} and a buffer length
`3 * feat_h * feat_w * 85` that does not exceed `INT_MAX`: the offset of a cell
`(a, h, w)`, computed in `int` arithmetic, is
`a * feat_h * feat_w * 85 + h * feat_w * 85 + w * 85`, every buffer index
`offset + 0..84` lies in `[0, 3 * feat_h * feat_w * 85)`, distinct cells have
disjoint index ranges, every anchor index is in `[0, 18)`, and the result of
`generate_proposals` depends on the feature buffer only through its first
`3 * feat_h * feat_w * 85` values and on the anchor table only through its 18
values. -/
theorem generate_proposals_reads_in_bounds (stride lc lr : Int)
    (hs : stride = 8 ∨ stride = 16 ∨ stride = 32)
    (hsize : 3 * lr.tdiv stride * lc.tdiv stride * 85 ≤ 2147483647) :
    (∀ h w a c : Int, 0 ≤ h → h < lr.tdiv stride → 0 ≤ w → w < lc.tdiv stride →
        0 ≤ a → a < 3 → 0 ≤ c → c ≤ 84 →
        cell_offset (lc.tdiv stride) (lr.tdiv stride) h w a =
            a * (lr.tdiv stride * lc.tdiv stride * 85) + h * (lc.tdiv stride * 85) + w * 85 ∧
          0 ≤ cell_offset (lc.tdiv stride) (lr.tdiv stride) h w a + c ∧
          cell_offset (lc.tdiv stride) (lr.tdiv stride) h w a + c <
            3 * lr.tdiv stride * lc.tdiv stride * 85) ∧
      (∀ h w a c h2 w2 a2 c2 : Int, 0 ≤ h → h < lr.tdiv stride → 0 ≤ w → w < lc.tdiv stride →
        0 ≤ a → a < 3 → 0 ≤ c → c ≤ 84 → 0 ≤ h2 → h2 < lr.tdiv stride → 0 ≤ w2 →
        w2 < lc.tdiv stride → 0 ≤ a2 → a2 < 3 → 0 ≤ c2 → c2 ≤ 84 →
        cell_offset (lc.tdiv stride) (lr.tdiv stride) h w a + c =
          cell_offset (lc.tdiv stride) (lr.tdiv stride) h2 w2 a2 + c2 →
        h = h2 ∧ w = w2 ∧ a = a2 ∧ c = c2) ∧
      (∀ g a k : Int, anchor_group_of stride = some g → 0 ≤ a → a < 3 → 0 ≤ k → k ≤ 1 →
        0 ≤ (g - 1) * 6 + a * 2 + k ∧ (g - 1) * 6 + a * 2 + k < 18) ∧
      ∀ (expf : ℚ → NNRat) (t : ℚ) (objects : List (Object ℚ))
        (feat feat2 anchors anchors2 : Int → ℚ),
        (∀ k : Int, 0 ≤ k → k < 3 * lr.tdiv stride * lc.tdiv stride * 85 → feat k = feat2 k) →
        (∀ k : Int, 0 ≤ k → k < 18 → anchors k = anchors2 k) →
        generate_proposals expf stride feat t objects lc lr anchors =
          generate_proposals expf stride feat2 t objects lc lr anchors2 := by
  obtain ⟨g0, hg⟩ := stride_group stride hs
  have hag := anchor_group_of_eq stride g0 hg
  have hg0 : 0 ≤ g0 ∧ g0 ≤ 2 := by
    rcases hg with ⟨_, e⟩ | ⟨_, e⟩ | ⟨_, e⟩ <;> omega
  have hanchor : ∀ g a k : Int, anchor_group_of stride = some g → 0 ≤ a → a < 3 → 0 ≤ k →
      k ≤ 1 → 0 ≤ (g - 1) * 6 + a * 2 + k ∧ (g - 1) * 6 + a * 2 + k < 18 := by
    intro g a k hgs a0 a1 k0 k1
    rw [hag] at hgs
    cases hgs
    omega
  refine ⟨fun h w a c h0 h1 w0 w1 a0 a1 c0 c1 =>
      ⟨by rw [cell_offset_eq _ _ _ _ _ h0 h1 w0 w1 a0 a1 hsize]; ring,
        cell_index_bounds _ _ h w a c h0 h1 w0 w1 a0 a1 c0 c1 hsize⟩,
    fun h w a c h2 w2 a2 c2 h0 h1 w0 w1 a0 a1 c0 c1 h20 h21 w20 w21 a20 a21 c20 c21 e =>
      cell_index_injective _ _ h w a c h2 w2 a2 c2 h0 h1 w0 w1 a0 a1 c0 c1 h20 h21 w20 w21
        a20 a21 c20 c21 hsize e,
    hanchor, ?_⟩
  intro expf t objects feat feat2 anchors anchors2 hfeat hanch
  rw [generate_proposals_eq expf stride feat t objects lc lr anchors g0 hg,
    generate_proposals_eq expf stride feat2 t objects lc lr anchors2 g0 hg]
  have hcell : ∀ c ∈ cells (lr.tdiv stride).toNat (lc.tdiv stride).toNat,
      cell_score expf feat (cell_offset (lc.tdiv stride) (lr.tdiv stride) c.1 c.2.1 c.2.2) =
          cell_score expf feat2
            (cell_offset (lc.tdiv stride) (lr.tdiv stride) c.1 c.2.1 c.2.2) ∧
        cell_object expf stride feat anchors (g0 + 1)
            (cell_offset (lc.tdiv stride) (lr.tdiv stride) c.1 c.2.1 c.2.2) c.1 c.2.1 c.2.2 =
          cell_object expf stride feat2 anchors2 (g0 + 1)
            (cell_offset (lc.tdiv stride) (lr.tdiv stride) c.1 c.2.1 c.2.2) c.1 c.2.1 c.2.2 := by
    intro c hc
    obtain ⟨h1, h2, h3⟩ := (mem_cells _ _ c).mp hc
    apply cell_congr
    · intro k k0 k1
      obtain ⟨b0, b1⟩ := cell_index_bounds (lc.tdiv stride) (lr.tdiv stride) c.1 c.2.1 c.2.2 k
        (by omega) (by omega) (by omega) (by omega) (by omega) (by omega) k0 k1 hsize
      exact hfeat _ b0 b1
    · intro k k0 k1
      obtain ⟨b0, b1⟩ := hanchor (g0 + 1) c.2.2 k hag (by omega) (by omega) k0 k1
      exact hanch _ b0 b1
  congr 2
  have hfilter : (cells (lr.tdiv stride).toNat (lc.tdiv stride).toNat).filter
      (fun c => decide (t ≤ cell_score expf feat
        (cell_offset (lc.tdiv stride) (lr.tdiv stride) c.1 c.2.1 c.2.2))) =
      (cells (lr.tdiv stride).toNat (lc.tdiv stride).toNat).filter
      (fun c => decide (t ≤ cell_score expf feat2
        (cell_offset (lc.tdiv stride) (lr.tdiv stride) c.1 c.2.1 c.2.2))) := by
    apply List.filter_congr
    intro c hc
    rw [(hcell c hc).1]
  rw [hfilter]
  apply List.map_congr_left
  intro c hc
  exact (hcell c (List.mem_of_mem_filter hc)).2

/-- An instance of the amended claim C19: stride 8 and a 640x640 letterbox,
whose buffer holds 3 * 80 * 80 * 85 = 1632000 values; the last index read is
1631999. -/
theorem generate_proposals_reads_in_bounds_witness :
    cell_offset 80 80 79 79 2 + 84 = 1631999 ∧
      cell_offset ((640 : Int).tdiv 8) ((640 : Int).tdiv 8) 79 79 2 + 84 <
        3 * (640 : Int).tdiv 8 * (640 : Int).tdiv 8 * 85 :=
  ⟨by decide,
    ((generate_proposals_reads_in_bounds 8 640 640 (Or.inl rfl) (by decide)).1 79 79 2 84
      (by decide) (by decide) (by decide) (by decide) (by decide) (by decide) (by decide)
      (by decide)).2.2⟩

/-- Claim C19 as stated fails: for stride 8 and a 24000x24000 letterbox the
feature map is 3000x3000 and the buffer holds 3 * 3000 * 3000 * 85 = 2295000000
values, more than `INT_MAX`.  The offset of the cell `(a, h, w) = (2, 2999, 2999)`
is 2294999915 in exact arithmetic; computed in 32-bit `int` arithmetic it wraps
to -1999967381, an index outside the buffer. -/
theorem generate_proposals_reads_in_bounds_counterexample :
    (24000 : Int).tdiv 8 = 3000 ∧
      (2 : Int) * (3000 * 3000 * 85) + 2999 * (3000 * 85) + 2999 * 85 = 2294999915 ∧
      cell_offset ((24000 : Int).tdiv 8) ((24000 : Int).tdiv 8) 2999 2999 2 = -1999967381 ∧
      ¬ (0 ≤ cell_offset ((24000 : Int).tdiv 8) ((24000 : Int).tdiv 8) 2999 2999 2 + 0) := by
  decide

/-! ## Indices accessed by the sorter -/

theorem scan_up_tr_of (v : List (Object ℚ)) (p : ℚ) :
    ∀ (n : Nat) (i i1 : Int), scan_up n v p i = some i1 →
      ∃ t, scan_up_tr n v p i = some (i1, t) ∧ i ≤ i1 ∧ ∀ k ∈ t, i ≤ k ∧ k ≤ i1 := by
  intro n
  induction n with
  | zero =>
    intro i i1 h
    simp [scan_up] at h
  | succ n ih =>
    intro i i1 h
    rw [scan_up] at h
    rw [scan_up_tr]
    cases ho : getI? v i with
    | none => simp [ho] at h
    | some o =>
      simp only [ho] at h ⊢
      by_cases hgt : o.prob > p
      · simp only [hgt, if_true] at h ⊢
        obtain ⟨t, ht, hle, hb⟩ := ih (i + 1) i1 h
        refine ⟨i :: t, by simp [ht], by omega, ?_⟩
        intro k hk
        rcases List.mem_cons.mp hk with e | hk
        · omega
        · have := hb k hk
          omega
      · simp only [hgt, if_false, Option.some.injEq] at h ⊢
        subst h
        exact ⟨[i], rfl, le_refl _, by simp⟩

theorem scan_down_tr_of (v : List (Object ℚ)) (p : ℚ) :
    ∀ (n : Nat) (j j1 : Int), scan_down n v p j = some j1 →
      ∃ t, scan_down_tr n v p j = some (j1, t) ∧ j1 ≤ j ∧ ∀ k ∈ t, j1 ≤ k ∧ k ≤ j := by
  intro n
  induction n with
  | zero =>
    intro j j1 h
    simp [scan_down] at h
  | succ n ih =>
    intro j j1 h
    rw [scan_down] at h
    rw [scan_down_tr]
    cases ho : getI? v j with
    | none => simp [ho] at h
    | some o =>
      simp only [ho] at h ⊢
      by_cases hlt : o.prob < p
      · simp only [hlt, if_true] at h ⊢
        obtain ⟨t, ht, hle, hb⟩ := ih (j - 1) j1 h
        refine ⟨j :: t, by simp [ht], by omega, ?_⟩
        intro k hk
        rcases List.mem_cons.mp hk with e | hk
        · omega
        · have := hb k hk
          omega
      · simp only [hlt, if_false, Option.some.injEq] at h ⊢
        subst h
        exact ⟨[j], rfl, le_refl _, by simp⟩

theorem partition_loop_tr_spec (v0 : List (Object ℚ)) (p : ℚ) (left right : Int) :
    ∀ (m : Nat) (v : List (Object ℚ)) (i j : Int),
      PInv v0 v p left right i j → j - i + 1 ≤ m →
      ∀ r, partition_loop (m + 1) v p i j = some r →
        ∃ t, partition_loop_tr (m + 1) v p i j = some (r, t) ∧
          ∀ k ∈ t, left ≤ k ∧ k ≤ right := by
  intro m
  induction m with
  | zero =>
    intro v i j inv hm r hr
    have hij : ¬ i ≤ j := by
      simp at hm
      omega
    rw [partition_loop] at hr
    simp only [hij, if_false, Option.some.injEq] at hr
    subst hr
    exact ⟨[], by simp [partition_loop_tr, hij], by simp⟩
  | succ m ih =>
    intro v i j inv hm r hr
    by_cases hij : i ≤ j
    · obtain ⟨i1, j1, hs1, hs2, b1, b2, b3, b4, hswap, hnoswap⟩ :=
        partition_step v0 p left right v i j inv hij
      obtain ⟨t1, ht1, _, hb1⟩ := scan_up_tr_of v p _ i i1 hs1
      obtain ⟨t2, ht2, _, hb2⟩ := scan_down_tr_of v p _ j j1 hs2
      have hi := inv.hi
      have hj := inv.hj
      rw [partition_loop] at hr
      simp only [hij, if_true, hs1, hs2] at hr
      by_cases h1 : i1 ≤ j1
      · obtain ⟨v1, hv1, inv1⟩ := hswap h1
        simp only [h1, if_true, hv1] at hr
        obtain ⟨t3, ht3, hb3⟩ := ih v1 (i1 + 1) (j1 - 1) inv1 (by push_cast at hm; omega) r hr
        refine ⟨t1 ++ t2 ++ [i1, j1] ++ t3, ?_, ?_⟩
        · rw [partition_loop_tr]
          simp only [hij, if_true, ht1, ht2, h1, hv1, ht3]
        · intro k hk
          simp only [List.mem_append, List.mem_cons, List.mem_singleton, List.not_mem_nil,
            or_false] at hk
          rcases hk with ((hk | hk) | (hk | hk)) | hk
          · have := hb1 k hk
            omega
          · have := hb2 k hk
            omega
          · omega
          · omega
          · exact hb3 k hk
      · simp only [h1, if_false] at hr
        obtain ⟨t3, ht3, hb3⟩ := ih v i1 j1 (hnoswap h1) (by omega) r hr
        refine ⟨t1 ++ t2 ++ t3, ?_, ?_⟩
        · rw [partition_loop_tr]
          simp only [hij, if_true, ht1, ht2, h1, if_false, ht3]
        · intro k hk
          simp only [List.mem_append] at hk
          rcases hk with (hk | hk) | hk
          · have := hb1 k hk
            omega
          · have := hb2 k hk
            omega
          · exact hb3 k hk
    · rw [partition_loop] at hr
      simp only [hij, if_false, Option.some.injEq] at hr
      subst hr
      exact ⟨[], by simp [partition_loop_tr, hij], by simp⟩

theorem pinv_init (v : List (Object ℚ)) (left right : Int) (m : Object ℚ)
    (h1 : 0 ≤ left) (h2 : left ≤ right) (h3 : right < v.length)
    (hm : getI? v ((left + right) / 2) = some m) :
    PInv v v m.prob left right left right :=
  { len := rfl, perm := List.Perm.refl _, hl := h1, hr := h3, hi := le_refl _,
    hj := le_refl _, hi2 := by omega, hj2 := by omega, outside := fun _ _ => rfl,
    sub := fun k o a b c => ⟨k, a, b, c⟩,
    lo := by
      intro k o a b
      omega
    up := by
      intro k o a b
      omega
    stop := fun _ =>
      ⟨⟨_, m, by omega, by omega, hm, le_refl _⟩, ⟨_, m, by omega, by omega, hm, le_refl _⟩⟩
    prog := Or.inl ⟨rfl, rfl, _, m, by omega, by omega, hm, rfl⟩ }

theorem qsort_range_tr_spec :
    ∀ (n : Nat) (v : List (Object ℚ)) (left right : Int),
      0 ≤ left → left ≤ right → right < v.length → right - left + 1 ≤ n →
      ∃ v1 t, qsort_range n v left right = some v1 ∧
        qsort_range_tr n v left right = some (v1, t) ∧ v1.length = v.length ∧
        ∀ k ∈ t, left ≤ k ∧ k ≤ right := by
  intro n
  induction n with
  | zero =>
    intro v left right _ h2 _ h4
    simp at h4
    omega
  | succ n ih =>
    intro v left right h1 h2 h3 h4
    have hmid : (left + right).tdiv 2 = (left + right) / 2 :=
      Int.tdiv_eq_ediv (by omega) (by omega)
    obtain ⟨m, hm⟩ := getI?_of_bounds v ((left + right) / 2) (by omega) (by omega)
    have inv0 := pinv_init v left right m h1 h2 h3 hm
    obtain ⟨v1, i, j, hp, inv, hji⟩ :=
      partition_loop_spec v m.prob left right (v.length + 1) v left right inv0
        (by push_cast; omega)
    obtain ⟨t1, ht1, hb1⟩ :=
      partition_loop_tr_spec v m.prob left right (v.length + 1) v left right inv0
        (by push_cast; omega) _ hp
    have hprog : left < i ∧ j < right := by
      rcases inv.prog with ⟨e1, e2, _⟩ | h
      · omega
      · exact h
    have hlen1 := inv.len
    have hi2 := inv.hi2
    have hj2 := inv.hj2
    obtain ⟨v2, t2, hq2, hqt2, hlen2, hb2⟩ : ∃ v2 t2,
        (if left < j then qsort_range n v1 left j else some v1) = some v2 ∧
          (if left < j then qsort_range_tr n v1 left j else some (v1, [])) = some (v2, t2) ∧
          v2.length = v1.length ∧ ∀ k ∈ t2, left ≤ k ∧ k ≤ right := by
      by_cases hlj : left < j
      · obtain ⟨v2, t2, e1, e2, e3, e4⟩ :=
          ih v1 left j h1 (by omega) (by omega) (by push_cast at h4; omega)
        refine ⟨v2, t2, by simp [hlj, e1], by simp [hlj, e2], e3, ?_⟩
        intro k hk
        have := e4 k hk
        omega
      · exact ⟨v1, [], by simp [hlj], by simp [hlj], rfl, by simp⟩
    obtain ⟨v3, t3, hq3, hqt3, hlen3, hb3⟩ : ∃ v3 t3,
        (if i < right then qsort_range n v2 i right else some v2) = some v3 ∧
          (if i < right then qsort_range_tr n v2 i right else some (v2, [])) = some (v3, t3) ∧
          v3.length = v2.length ∧ ∀ k ∈ t3, left ≤ k ∧ k ≤ right := by
      by_cases hir : i < right
      · obtain ⟨v3, t3, e1, e2, e3, e4⟩ :=
          ih v2 i right (by omega) (by omega) (by omega) (by push_cast at h4; omega)
        refine ⟨v3, t3, by simp [hir, e1], by simp [hir, e2], e3, ?_⟩
        intro k hk
        have := e4 k hk
        omega
      · exact ⟨v2, [], by simp [hir], by simp [hir], rfl, by simp⟩
    refine ⟨v3, (left + right).tdiv 2 :: (t1 ++ t2 ++ t3), ?_, ?_, by omega, ?_⟩
    · rw [qsort_range]
      simp only [hmid, hm, hp, hq2]
      exact hq3
    · rw [qsort_range_tr]
      simp only [hmid, hm, ht1, hqt2, hqt3]
    · intro k hk
      simp only [List.mem_cons, List.mem_append] at hk
      rcases hk with hk | (hk | hk) | hk
      · omega
      · exact hb1 k hk
      · exact hb2 k hk
      · exact hb3 k hk

/-- Claim C20.  For `0 <= left <= right < size(v)` the recursive
`qsort_descent_inplace(v, left, right)` terminates (any fuel of at least
`right - left + 1` gives a result), every index it reads or swaps lies in
`[left, right]`, and the elements outside `[left, right]` are unchanged. -/
theorem qsort_range_stays_in_range (v : List (Object ℚ)) (left right : Int) (n : Nat)
    (h0 : 0 ≤ left) (h1 : left ≤ right) (h2 : right < v.length)
    (hn : right - left + 1 ≤ n) :
    ∃ out t, qsort_range n v left right = some out ∧
      qsort_range_tr n v left right = some (out, t) ∧
      (∀ k ∈ t, left ≤ k ∧ k ≤ right) ∧
      ∀ k : Int, (k < left ∨ right < k) → getI? out k = getI? v k := by
  obtain ⟨out, t, e1, e2, _, e4⟩ := qsort_range_tr_spec n v left right h0 h1 h2 hn
  obtain ⟨out2, e5, post⟩ := qsort_range_spec n v left right h0 h1 h2 hn
  rw [e1] at e5
  cases e5
  exact ⟨out, t, e1, e2, e4, post.outside⟩

/-- An instance of claim C20: sorting the range `[1, 3]` of a vector of five
detections. -/
theorem qsort_range_stays_in_range_witness :
    ∃ out t,
      qsort_range 3
          [⟨⟨0, 0, 1, 1⟩, 0, 1⟩, ⟨⟨0, 0, 1, 1⟩, 1, 2⟩, ⟨⟨0, 0, 1, 1⟩, 2, 5⟩,
            ⟨⟨0, 0, 1, 1⟩, 3, 3⟩, ⟨⟨0, 0, 1, 1⟩, 4, 9⟩] 1 3 = some out ∧
        qsort_range_tr 3
          [⟨⟨0, 0, 1, 1⟩, 0, 1⟩, ⟨⟨0, 0, 1, 1⟩, 1, 2⟩, ⟨⟨0, 0, 1, 1⟩, 2, 5⟩,
            ⟨⟨0, 0, 1, 1⟩, 3, 3⟩, ⟨⟨0, 0, 1, 1⟩, 4, 9⟩] 1 3 = some (out, t) ∧
        ∀ k ∈ t, (1 : Int) ≤ k ∧ k ≤ 3 := by
  obtain ⟨out, t, a, b, c, _⟩ :=
    qsort_range_stays_in_range
      [⟨⟨0, 0, 1, 1⟩, 0, 1⟩, ⟨⟨0, 0, 1, 1⟩, 1, 2⟩, ⟨⟨0, 0, 1, 1⟩, 2, 5⟩,
        ⟨⟨0, 0, 1, 1⟩, 3, 3⟩, ⟨⟨0, 0, 1, 1⟩, 4, 9⟩] 1 3 3 (by decide) (by decide)
      (by decide) (by decide)
  exact ⟨out, t, a, b, c⟩

end detection
